import Mathlib

/-!
Shallow embedding of the walk-mesh navigation subsystem (`WalkMesh.cpp`).

Modelling conventions:
* `glm::vec3` (single-precision float vectors) are embedded as exact
  3-component vectors over a linear ordered field `K`; the arithmetic of the
  source is translated verbatim, idealizing IEEE floats as exact field
  arithmetic.  Definitions requiring square roots (vector normalization and
  quaternion construction) are specialized to `K = ℝ`.
* `glm::uvec3` (32-bit unsigned index triples) are embedded as triples of `ℕ`;
  no arithmetic is ever performed on indices, so wrap-around is irrelevant.
  The `-1U` sentinel used by `cross_edge` is modelled with `Option`.
* `assert(...)` failures (which abort the process) are modelled by returning
  `none`, and `throw std::runtime_error(...)` by `Except.error`.
-/

set_option maxHeartbeats 1000000
set_option linter.unusedSectionVars false

namespace WalkMeshVerif

variable {K : Type} [LinearOrderedField K]

/-- Exact model of `glm::vec3`: a 3-vector of field elements. -/
structure Vec3 (K : Type) where
  x : K
  y : K
  z : K
deriving DecidableEq

namespace Vec3

def add (u v : Vec3 K) : Vec3 K := ⟨u.x + v.x, u.y + v.y, u.z + v.z⟩

def sub (u v : Vec3 K) : Vec3 K := ⟨u.x - v.x, u.y - v.y, u.z - v.z⟩

def neg (u : Vec3 K) : Vec3 K := ⟨-u.x, -u.y, -u.z⟩

def smul (t : K) (u : Vec3 K) : Vec3 K := ⟨t * u.x, t * u.y, t * u.z⟩

instance : Add (Vec3 K) := ⟨Vec3.add⟩

instance : Sub (Vec3 K) := ⟨Vec3.sub⟩

instance : Neg (Vec3 K) := ⟨Vec3.neg⟩

instance : SMul K (Vec3 K) := ⟨Vec3.smul⟩

instance : Zero (Vec3 K) := ⟨⟨0, 0, 0⟩⟩

@[simp] theorem add_def (u v : Vec3 K) : u + v = ⟨u.x + v.x, u.y + v.y, u.z + v.z⟩ := rfl

@[simp] theorem sub_def (u v : Vec3 K) : u - v = ⟨u.x - v.x, u.y - v.y, u.z - v.z⟩ := rfl

@[simp] theorem neg_def (u : Vec3 K) : -u = ⟨-u.x, -u.y, -u.z⟩ := rfl

@[simp] theorem smul_def (t : K) (u : Vec3 K) : t • u = ⟨t * u.x, t * u.y, t * u.z⟩ := rfl

@[simp] theorem zero_def : (0 : Vec3 K) = ⟨0, 0, 0⟩ := rfl

/-- Component access by position (0 ↦ x, 1 ↦ y, otherwise z), mirroring
`operator[]` of `glm::vec3`. -/
def nth (v : Vec3 K) : ℕ → K
  | 0 => v.x
  | 1 => v.y
  | _ => v.z

@[simp] theorem nth_zero (v : Vec3 K) : v.nth 0 = v.x := rfl

@[simp] theorem nth_one (v : Vec3 K) : v.nth 1 = v.y := rfl

@[simp] theorem nth_two (v : Vec3 K) : v.nth 2 = v.z := rfl

end Vec3

namespace glm

/-- `glm::dot` on 3-vectors. -/
def dot (u v : Vec3 K) : K := u.x * v.x + u.y * v.y + u.z * v.z

/-- `glm::cross`. -/
def cross (u v : Vec3 K) : Vec3 K :=
  ⟨u.y * v.z - u.z * v.y, u.z * v.x - u.x * v.z, u.x * v.y - u.y * v.x⟩

/-- `glm::length2` (squared length). -/
def length2 (v : Vec3 K) : K := dot v v

/-- `glm::mix(a, b, t) = a * (1 - t) + b * t`, componentwise. -/
def mix (a b : Vec3 K) (t : K) : Vec3 K := (1 - t) • a + t • b

end glm

/-- Model of `glm::uvec3` as used for vertex-index triples. -/
structure UVec3 where
  x : ℕ
  y : ℕ
  z : ℕ
deriving DecidableEq

@[ext] theorem UVec3.ext_indices {u v : UVec3} (hx : u.x = v.x) (hy : u.y = v.y)
    (hz : u.z = v.z) : u = v := by
  cases u; cases v; cases hx; cases hy; cases hz; rfl

/-- The three cyclic rotations of an index triple. -/
def UVec3.cyclicPerms (t : UVec3) : List UVec3 :=
  [t, ⟨t.y, t.z, t.x⟩, ⟨t.z, t.x, t.y⟩]

/-- `WalkPoint` (declared in `WalkMesh.hpp`): a triangle's index triple plus
barycentric weights on that triangle. -/
structure WalkPoint (K : Type) where
  indices : UVec3
  weights : Vec3 K
deriving DecidableEq

/-- `WalkMesh`: vertex positions, per-vertex normals, triangle index triples.
The derived `next_vertex` adjacency map is represented by the lookup function
`WalkMesh.next_vertex` below. -/
structure WalkMesh (K : Type) where
  vertices : List (Vec3 K)
  normals : List (Vec3 K)
  triangles : List UVec3
deriving DecidableEq

/-- `vertices[i]`; out-of-range access (undefined behaviour in C++) is given
the harmless default `0`, and every theorem that depends on a vertex value
carries an in-range or well-formedness hypothesis. -/
def WalkMesh.vtx (m : WalkMesh K) (i : ℕ) : Vec3 K := m.vertices.getD i ⟨0, 0, 0⟩

/-- Lookup in the `next_vertex` adjacency map built by the `WalkMesh`
constructor: each triangle `(x,y,z)` inserts `(x,y) ↦ z`, `(y,z) ↦ x`,
`(z,x) ↦ y`, and the constructor asserts that each directed-edge key is
inserted at most once, so map lookup returns the value contributed by the
unique triangle owning the directed edge `a → b` (or nothing). -/
def WalkMesh.next_vertex (m : WalkMesh K) (a b : ℕ) : Option ℕ :=
  (m.triangles.filterMap fun t =>
    if t.x = a ∧ t.y = b then some t.z
    else if t.y = a ∧ t.z = b then some t.x
    else if t.z = a ∧ t.x = b then some t.y
    else none).head?

/-- The denominator `d00 * d11 - d01 * d01` of the Cramer's-rule solve in
`barycentric_weights` (zero exactly for degenerate triangles). -/
def bary_denom (a b c : Vec3 K) : K :=
  let v0 := b - a
  let v1 := c - a
  glm.dot v0 v0 * glm.dot v1 v1 - glm.dot v0 v1 * glm.dot v0 v1

/-- `barycentric_weights` (WalkMesh.cpp, lines 48-62): project `pt` to the
plane of triangle `a,b,c` and return barycentric weights of the projection,
via Cramer's rule.  Division by zero (degenerate triangle; undefined in the
source, NaN/Inf in floats) is the field convention `x / 0 = 0`; all theorems
touching degenerate cases carry a `bary_denom ≠ 0` hypothesis. -/
def barycentric_weights (a b c pt : Vec3 K) : Vec3 K :=
  let v0 := b - a
  let v1 := c - a
  let v2 := pt - a
  let d00 := glm.dot v0 v0
  let d01 := glm.dot v0 v1
  let d11 := glm.dot v1 v1
  let d20 := glm.dot v2 v0
  let d21 := glm.dot v2 v1
  let denom := d00 * d11 - d01 * d01
  let v := (d11 * d20 - d01 * d21) / denom
  let w := (d00 * d21 - d01 * d20) / denom
  let u := 1 - v - w
  ⟨u, v, w⟩

/-- Modelled from the spec: `WalkMesh::to_world_point` is declared in
`WalkMesh.hpp`, which is not among the provided sources; per the spec,
"world position of a WalkPoint is the weighted sum of its triangle's
vertices by its barycentric weights". -/
def WalkMesh.to_world_point (m : WalkMesh K) (wp : WalkPoint K) : Vec3 K :=
  wp.weights.x • m.vtx wp.indices.x + wp.weights.y • m.vtx wp.indices.y +
    wp.weights.z • m.vtx wp.indices.z

/-- The `cross_on_edge` lambda of `WalkMesh::walk_in_triangle` (lines
150-157): record the smallest crossing time over the components whose
destination weight is non-positive.  The running state `(min_time, min_coord)`
starts at `(+∞, -1U)`, modelled as `none`.

The source computes `time = -start_w / (dest_w - start_w)` and then tests
`time < min_time`.  When the denominator is zero this quotient is, in the
source's IEEE float arithmetic, either NaN (numerator zero) or `+∞`
(numerator nonzero, which under the `dest_w ≤ 0` guard forces
`start_w = dest_w ≤ 0`, hence numerator `-start_w ≥ 0`); in both cases the
comparison `time < min_time` is false and the state is left unchanged.  The
exact model makes that skip explicit with the `dest_w - start_w = 0` test,
since the field convention `x / 0 = 0` would otherwise diverge from the
source. -/
def cross_on_edge (acc : Option (K × ℕ)) (coord : ℕ) (dest_w start_w : K) :
    Option (K × ℕ) :=
  if 0 < dest_w then acc
  else if dest_w - start_w = 0 then acc
  else
    let time := -start_w / (dest_w - start_w)
    match acc with
    | none => some (time, coord)
    | some (min_time, min_coord) =>
        if time < min_time then some (time, coord) else some (min_time, min_coord)

/-- The `(min_time, min_coord)` state of `walk_in_triangle` after the three
`cross_on_edge` calls (lines 159-161). -/
def walk_scan (dest_bary start_weights : Vec3 K) : Option (K × ℕ) :=
  cross_on_edge
    (cross_on_edge
      (cross_on_edge (none : Option (K × ℕ)) 0 dest_bary.x start_weights.x)
      1 dest_bary.y start_weights.y)
    2 dest_bary.z start_weights.z

/-- The `dest` / `dest_bary` locals of `WalkMesh::walk_in_triangle` (lines
139-145): barycentric weights, against `start`'s triangle, of the world-space
destination `to_world_point(start) + step`. -/
def WalkMesh.dest_bary (m : WalkMesh K) (start : WalkPoint K) (step : Vec3 K) :
    Vec3 K :=
  let a := m.vtx start.indices.x
  let b := m.vtx start.indices.y
  let c := m.vtx start.indices.z
  let dest := m.to_world_point start + step
  barycentric_weights a b c dest

/-- `WalkMesh::walk_in_triangle` (lines 131-196).  The output parameters
`*end_` and `*time_` become the returned pair; `assert(time > 0.0f)` (line
165) is modelled by returning `none` when the computed time is not positive.
`time = std::min(1.0f, min_time)` with `min_time = +∞` (no crossing) is `1`.
The `switch (min_coord)` relabelling (lines 169-195) is translated case by
case. -/
def WalkMesh.walk_in_triangle (m : WalkMesh K) (start : WalkPoint K)
    (step : Vec3 K) : Option (WalkPoint K × K) :=
  let dest_bary := m.dest_bary start step
  let acc := walk_scan dest_bary start.weights
  let time : K :=
    match acc with
    | none => 1
    | some (min_time, _) => min 1 min_time
  if time ≤ 0 then none
  else
    let weights : Vec3 K := start.weights + time • (dest_bary - start.weights)
    match acc with
    | some (_, 0) =>
        some (⟨⟨start.indices.y, start.indices.z, start.indices.x⟩,
               ⟨weights.y, weights.z, 0⟩⟩, time)
    | some (_, 1) =>
        some (⟨⟨start.indices.z, start.indices.x, start.indices.y⟩,
               ⟨weights.z, weights.x, 0⟩⟩, time)
    | some (_, 2) =>
        some (⟨start.indices, ⟨weights.x, weights.y, 0⟩⟩, time)
    | _ =>
        some (⟨start.indices, weights⟩, time)

/-- The `check_edge` lambda of `WalkMesh::nearest_walk_point` (lines 91-118):
closest point on segment `a-b` (with remaining vertex `ci` kept for result
labelling), returned as a `(squared distance, candidate WalkPoint)` pair.
The local `max` of the source is named `mx` to avoid shadowing. -/
def WalkMesh.check_edge (m : WalkMesh K) (world_point : Vec3 K)
    (ai bi ci : ℕ) : K × WalkPoint K :=
  let a := m.vtx ai
  let b := m.vtx bi
  let along := glm.dot (world_point - a) (b - a)
  let mx := glm.dot (b - a) (b - a)
  let ptc : Vec3 K × Vec3 K :=
    if along < 0 then (a, ⟨1, 0, 0⟩)
    else if mx < along then (b, ⟨0, 1, 0⟩)
    else
      let amt := along / mx
      (glm.mix a b amt, ⟨1 - amt, amt, 0⟩)
  (glm.length2 (world_point - ptc.1), ⟨⟨ai, bi, ci⟩, ptc.2⟩)

/-- The candidates one triangle contributes to the scan of
`WalkMesh::nearest_walk_point` (lines 70-122): the in-plane projection when
its barycentric weights are all nonnegative, else the three clamped edge
candidates, in source order. -/
def WalkMesh.triangle_candidates (m : WalkMesh K) (world_point : Vec3 K)
    (tri : UVec3) : List (K × WalkPoint K) :=
  let a := m.vtx tri.x
  let b := m.vtx tri.y
  let c := m.vtx tri.z
  let coords := barycentric_weights a b c world_point
  if 0 ≤ coords.x ∧ 0 ≤ coords.y ∧ 0 ≤ coords.z then
    [(glm.length2 (world_point - m.to_world_point ⟨tri, coords⟩), ⟨tri, coords⟩)]
  else
    [m.check_edge world_point tri.x tri.y tri.z,
     m.check_edge world_point tri.y tri.z tri.x,
     m.check_edge world_point tri.z tri.x tri.y]

/-- The full candidate sequence of `nearest_walk_point`, in iteration order. -/
def WalkMesh.nearest_candidates (m : WalkMesh K) (world_point : Vec3 K) :
    List (K × WalkPoint K) :=
  (m.triangles.map (m.triangle_candidates world_point)).flatten

/-- One `dis2 < closest_dis2` update of `nearest_walk_point` (lines 84-88 and
113-117); the initial `closest_dis2 = +∞` state is `none`, and every real
squared distance is below `+∞`. -/
def update_closest (acc : Option (K × WalkPoint K)) (cand : K × WalkPoint K) :
    Option (K × WalkPoint K) :=
  match acc with
  | none => some cand
  | some (closest_dis2, closest) =>
      if cand.1 < closest_dis2 then some cand else some (closest_dis2, closest)

/-- `WalkMesh::nearest_walk_point` (lines 64-128).  The entry assertion on a
non-empty triangle list is subsumed by the fold: an empty list leaves the
`closest` state untouched and the function fails (`none`, the model of the
fatal assertion).  The trailing assertions (lines 124-126) re-check that the
selected indices are within the vertex buffer; they are modelled by the final
range test. -/
def WalkMesh.nearest_walk_point (m : WalkMesh K) (world_point : Vec3 K) :
    Option (WalkPoint K) :=
  match (m.nearest_candidates world_point).foldl update_closest none with
  | none => none
  | some (_, closest) =>
      if closest.indices.x < m.vertices.length ∧
          closest.indices.y < m.vertices.length ∧
          closest.indices.z < m.vertices.length then
        some closest
      else none

/-! ### Basic lemmas about the geometry primitives -/

@[ext] theorem Vec3.ext_xyz {u v : Vec3 K} (hx : u.x = v.x) (hy : u.y = v.y)
    (hz : u.z = v.z) : u = v := by
  cases u; cases v; cases hx; cases hy; cases hz; rfl

/-- Validity invariant on the weight vector of a `WalkPoint` (spec §3):
all weights nonnegative and summing to 1. -/
def WalkPoint.valid_weights (p : WalkPoint K) : Prop :=
  0 ≤ p.weights.x ∧ 0 ≤ p.weights.y ∧ 0 ≤ p.weights.z ∧
    p.weights.x + p.weights.y + p.weights.z = 1

instance (p : WalkPoint K) : Decidable p.valid_weights :=
  inferInstanceAs (Decidable (_ ∧ _ ∧ _ ∧ _))

/-- Validity invariant on the index triple of a `WalkPoint` (spec §3): a
cyclic permutation of a triangle of the mesh. -/
def WalkMesh.on_mesh_triangle (m : WalkMesh K) (idx : UVec3) : Prop :=
  ∃ t ∈ m.triangles, idx ∈ t.cyclicPerms

instance (m : WalkMesh K) (idx : UVec3) : Decidable (m.on_mesh_triangle idx) :=
  inferInstanceAs (Decidable (∃ t ∈ m.triangles, idx ∈ t.cyclicPerms))

theorem bary_denom_eq_length2_cross (a b c : Vec3 K) :
    bary_denom a b c = glm.length2 (glm.cross (b - a) (c - a)) := by
  simp only [bary_denom, glm.length2, glm.dot, glm.cross, Vec3.sub_def]
  ring

theorem length2_nonneg (v : Vec3 K) : 0 ≤ glm.length2 v := by
  simp only [glm.length2, glm.dot]
  nlinarith [sq_nonneg v.x, sq_nonneg v.y, sq_nonneg v.z]

theorem length2_eq_zero_iff (v : Vec3 K) : glm.length2 v = 0 ↔ v = 0 := by
  constructor
  · intro h
    simp only [glm.length2, glm.dot] at h
    ext <;> simp only [Vec3.zero_def] <;> nlinarith [sq_nonneg v.x, sq_nonneg v.y, sq_nonneg v.z]
  · intro h
    subst h
    simp [glm.length2, glm.dot]

theorem length2_pos_of_ne_zero {v : Vec3 K} (hv : v ≠ 0) : 0 < glm.length2 v :=
  lt_of_le_of_ne (length2_nonneg v) fun h => hv ((length2_eq_zero_iff v).mp h.symm)

theorem bary_denom_ne_zero_of_cross {a b c : Vec3 K}
    (h : glm.cross (b - a) (c - a) ≠ 0) : bary_denom a b c ≠ 0 := by
  rw [bary_denom_eq_length2_cross]
  exact ne_of_gt (length2_pos_of_ne_zero h)

/-- The weights returned by `barycentric_weights` always sum to 1 exactly
(the first weight is defined as `1 - v - w`). -/
theorem bary_sum (a b c pt : Vec3 K) :
    (barycentric_weights a b c pt).x + (barycentric_weights a b c pt).y +
      (barycentric_weights a b c pt).z = 1 := by
  simp only [barycentric_weights]
  ring

/-- Round trip: on a non-degenerate triangle, the barycentric weights of an
affine combination `u•a + v•b + w•c` (with `u+v+w = 1`) are exactly
`(u, v, w)`. -/
theorem barycentric_weights_combo (a b c : Vec3 K) (u v w : K)
    (hsum : u + v + w = 1) (hd : bary_denom a b c ≠ 0) :
    barycentric_weights a b c (u • a + v • b + w • c) = ⟨u, v, w⟩ := by
  have hu : u = 1 - v - w := by linarith
  subst hu
  simp only [bary_denom, glm.dot, Vec3.sub_def] at hd
  simp only [barycentric_weights, glm.dot, Vec3.sub_def, Vec3.add_def, Vec3.smul_def]
  ext <;> field_simp <;> ring

/-- A point of the form `(1-t)•a + t•b` (on the a-b edge line) has barycentric
weights `(1-t, t, 0)`. -/
theorem barycentric_weights_on_edge (a b c : Vec3 K) (t : K)
    (hd : bary_denom a b c ≠ 0) :
    barycentric_weights a b c ((1 - t) • a + t • b) = ⟨1 - t, t, 0⟩ := by
  have h := barycentric_weights_combo a b c (1 - t) t 0 (by ring) hd
  simpa using h

theorem cross_on_edge_self (acc : Option (K × ℕ)) (i : ℕ) (w : K) :
    cross_on_edge acc i w w = acc := by
  simp [cross_on_edge]

theorem cross_on_edge_pos_dest (acc : Option (K × ℕ)) (i : ℕ) {d : K} (s : K)
    (h : 0 < d) : cross_on_edge acc i d s = acc := by
  simp [cross_on_edge, h]

/-- A concrete single-triangle walk mesh over `ℚ`, used by witnesses. -/
def triMesh : WalkMesh ℚ :=
  ⟨[⟨0, 0, 0⟩, ⟨1, 0, 0⟩, ⟨0, 1, 0⟩],
   [⟨0, 0, 1⟩, ⟨0, 0, 1⟩, ⟨0, 0, 1⟩],
   [⟨0, 1, 2⟩]⟩

/-- C5: for every valid WalkPoint `p` (weights nonnegative, summing to 1, on
a non-degenerate triangle), `walk_in_triangle p 0` returns `p` unchanged with
fraction consumed `t = 1`. -/
theorem C5_walk_in_triangle_zero_step {K : Type} [LinearOrderedField K]
    (m : WalkMesh K) (p : WalkPoint K) (hval : p.valid_weights)
    (hnd : glm.cross (m.vtx p.indices.y - m.vtx p.indices.x)
      (m.vtx p.indices.z - m.vtx p.indices.x) ≠ 0) :
    m.walk_in_triangle p 0 = some (p, 1) := by
  obtain ⟨hx, hy, hz, hsum⟩ := hval
  have hd := bary_denom_ne_zero_of_cross hnd
  have hdest : m.to_world_point p + (0 : Vec3 K) =
      p.weights.x • m.vtx p.indices.x + p.weights.y • m.vtx p.indices.y +
        p.weights.z • m.vtx p.indices.z := by
    ext <;> simp [WalkMesh.to_world_point]
  have key : barycentric_weights (m.vtx p.indices.x) (m.vtx p.indices.y)
      (m.vtx p.indices.z) (m.to_world_point p + (0 : Vec3 K)) = p.weights := by
    rw [hdest, barycentric_weights_combo _ _ _ _ _ _ hsum hd]
  have keyd : m.dest_bary p (0 : Vec3 K) = p.weights := by
    simp only [WalkMesh.dest_bary]
    exact key
  have hscan : walk_scan p.weights p.weights = none := by
    simp [walk_scan, cross_on_edge_self]
  have hw : p.weights + (1 : K) • (p.weights - p.weights) = p.weights := by
    ext <;> simp
  simp only [WalkMesh.walk_in_triangle, keyd, hscan, hw]
  rw [if_neg (by norm_num : ¬(1 : K) ≤ 0)]

unseal Rat.inv Rat.mul Rat.add Rat.sub in
/-- C5 witness: a concrete valid point on the concrete mesh, zero step. -/
theorem C5_witness :
    triMesh.walk_in_triangle ⟨⟨0, 1, 2⟩, ⟨1/2, 1/4, 1/4⟩⟩ 0 =
      some (⟨⟨0, 1, 2⟩, ⟨1/2, 1/4, 1/4⟩⟩, 1) :=
  C5_walk_in_triangle_zero_step triMesh ⟨⟨0, 1, 2⟩, ⟨1/2, 1/4, 1/4⟩⟩
    (by decide) (by decide)

/-- C6: for every valid start and step whose destination barycentric weights
against the start triangle are all strictly positive, `walk_in_triangle`
returns fraction 1, the exact destination weights, and the start's index
triple unchanged. -/
theorem C6_walk_in_triangle_interior {K : Type} [LinearOrderedField K]
    (m : WalkMesh K) (p : WalkPoint K) (step : Vec3 K) (hval : p.valid_weights)
    (hpos :
      0 < (barycentric_weights (m.vtx p.indices.x) (m.vtx p.indices.y)
        (m.vtx p.indices.z) (m.to_world_point p + step)).x ∧
      0 < (barycentric_weights (m.vtx p.indices.x) (m.vtx p.indices.y)
        (m.vtx p.indices.z) (m.to_world_point p + step)).y ∧
      0 < (barycentric_weights (m.vtx p.indices.x) (m.vtx p.indices.y)
        (m.vtx p.indices.z) (m.to_world_point p + step)).z) :
    m.walk_in_triangle p step =
      some (⟨p.indices, barycentric_weights (m.vtx p.indices.x)
        (m.vtx p.indices.y) (m.vtx p.indices.z)
        (m.to_world_point p + step)⟩, 1) := by
  obtain ⟨h0, h1, h2⟩ := hpos
  set db := barycentric_weights (m.vtx p.indices.x) (m.vtx p.indices.y)
    (m.vtx p.indices.z) (m.to_world_point p + step) with hdb
  have hscan : walk_scan db p.weights = none := by
    rw [walk_scan, cross_on_edge_pos_dest _ _ _ h0,
      cross_on_edge_pos_dest _ _ _ h1, cross_on_edge_pos_dest _ _ _ h2]
  have hw : p.weights + (1 : K) • (db - p.weights) = db := by
    ext <;> simp
  have keyd : m.dest_bary p step = db := by rw [hdb]; rfl
  simp only [WalkMesh.walk_in_triangle, keyd, hscan, hw]
  rw [if_neg (by norm_num : ¬(1 : K) ≤ 0)]

unseal Rat.inv Rat.mul Rat.add Rat.sub in
/-- C6 witness: from the centroid of the concrete triangle, a small step that
stays strictly inside. -/
theorem C6_witness :
    triMesh.walk_in_triangle ⟨⟨0, 1, 2⟩, ⟨1/3, 1/3, 1/3⟩⟩ ⟨1/6, -1/6, 0⟩ =
      some (⟨⟨0, 1, 2⟩, barycentric_weights (triMesh.vtx 0) (triMesh.vtx 1)
        (triMesh.vtx 2)
        (triMesh.to_world_point ⟨⟨0, 1, 2⟩, ⟨1/3, 1/3, 1/3⟩⟩ + ⟨1/6, -1/6, 0⟩)⟩,
        1) :=
  C6_walk_in_triangle_interior triMesh ⟨⟨0, 1, 2⟩, ⟨1/3, 1/3, 1/3⟩⟩
    ⟨1/6, -1/6, 0⟩ (by decide) (by decide)

/-! ### Characterization of the edge-crossing scan -/

/-- Component access by position on an index triple. -/
def UVec3.nth (v : UVec3) : ℕ → ℕ
  | 0 => v.x
  | 1 => v.y
  | _ => v.z

/-- A component qualifies for the crossing test of `cross_on_edge`: its
destination weight is non-positive (the source's guard) and the
crossing-time denominator is nonzero (otherwise the IEEE quotient is NaN or
`+∞` and the component is skipped, see `cross_on_edge`). -/
def qualifies (dest_w start_w : K) : Prop :=
  ¬(0 < dest_w) ∧ dest_w - start_w ≠ 0

/-- The crossing time `-start_w / (dest_w - start_w)` computed by
`cross_on_edge`. -/
def crossing_time (dest_w start_w : K) : K := -start_w / (dest_w - start_w)

theorem cross_on_edge_not_qual (acc : Option (K × ℕ)) (i : ℕ) {d s : K}
    (h : ¬ qualifies d s) : cross_on_edge acc i d s = acc := by
  unfold qualifies at h
  push_neg at h
  rcases lt_or_le 0 d with hd | hd
  · simp [cross_on_edge, hd]
  · simp [cross_on_edge, not_lt.mpr hd, h hd]

theorem cross_on_edge_qual_none (i : ℕ) {d s : K} (h : qualifies d s) :
    cross_on_edge none i d s = some (crossing_time d s, i) := by
  simp [cross_on_edge, h.1, h.2, crossing_time]

theorem cross_on_edge_qual_some (mt : K) (mc i : ℕ) {d s : K}
    (h : qualifies d s) :
    cross_on_edge (some (mt, mc)) i d s =
      if crossing_time d s < mt then some (crossing_time d s, i)
      else some (mt, mc) := by
  simp [cross_on_edge, h.1, h.2, crossing_time]

/-- Invariant of the crossing scan over a processed list of
`(coordinate, dest weight, start weight)` records: either nothing qualified,
or the state holds a qualifying record's crossing time which is minimal among
all qualifying records. -/
def scan_inv (ps : List (ℕ × K × K)) (acc : Option (K × ℕ)) : Prop :=
  (acc = none ∧ ∀ p ∈ ps, ¬ qualifies p.2.1 p.2.2) ∨
  (∃ p ∈ ps, qualifies p.2.1 p.2.2 ∧
    acc = some (crossing_time p.2.1 p.2.2, p.1) ∧
    ∀ q ∈ ps, qualifies q.2.1 q.2.2 →
      crossing_time p.2.1 p.2.2 ≤ crossing_time q.2.1 q.2.2)

theorem scan_inv_step (ps : List (ℕ × K × K)) (acc : Option (K × ℕ))
    (k : ℕ) (dk sk : K) (h : scan_inv ps acc) :
    scan_inv (ps ++ [(k, dk, sk)]) (cross_on_edge acc k dk sk) := by
  by_cases hq : qualifies dk sk
  · rcases h with ⟨hnone, hall⟩ | ⟨p, hp, hpq, hacc, hmin⟩
    · subst hnone
      rw [cross_on_edge_qual_none _ hq]
      right
      refine ⟨(k, dk, sk), by simp, hq, rfl, ?_⟩
      intro q hqmem hqq
      rcases List.mem_append.mp hqmem with hq' | hq'
      · exact absurd hqq (hall q hq')
      · simp only [List.mem_singleton] at hq'
        subst hq'
        exact le_refl _
    · subst hacc
      rw [cross_on_edge_qual_some _ _ _ hq]
      split_ifs with hlt
      · right
        refine ⟨(k, dk, sk), by simp, hq, rfl, ?_⟩
        intro q hqmem hqq
        rcases List.mem_append.mp hqmem with hq' | hq'
        · exact le_of_lt (lt_of_lt_of_le hlt (hmin q hq' hqq))
        · simp only [List.mem_singleton] at hq'
          subst hq'
          exact le_refl _
      · right
        refine ⟨p, List.mem_append.mpr (Or.inl hp), hpq, rfl, ?_⟩
        intro q hqmem hqq
        rcases List.mem_append.mp hqmem with hq' | hq'
        · exact hmin q hq' hqq
        · simp only [List.mem_singleton] at hq'
          subst hq'
          exact not_lt.mp hlt
  · rw [cross_on_edge_not_qual _ _ hq]
    rcases h with ⟨hnone, hall⟩ | ⟨p, hp, hpq, hacc, hmin⟩
    · left
      refine ⟨hnone, ?_⟩
      intro q hqmem
      rcases List.mem_append.mp hqmem with hq' | hq'
      · exact hall q hq'
      · simp only [List.mem_singleton] at hq'
        subst hq'
        exact hq
    · right
      refine ⟨p, List.mem_append.mpr (Or.inl hp), hpq, hacc, ?_⟩
      intro q hqmem hqq
      rcases List.mem_append.mp hqmem with hq' | hq'
      · exact hmin q hq' hqq
      · simp only [List.mem_singleton] at hq'
        subst hq'
        exact absurd hqq hq

/-- The invariant holds of the three-component scan of `walk_in_triangle`. -/
theorem walk_scan_inv (d s : Vec3 K) :
    scan_inv [(0, d.x, s.x), (1, d.y, s.y), (2, d.z, s.z)] (walk_scan d s) := by
  have h0 : scan_inv ([] : List (ℕ × K × K)) none := Or.inl ⟨rfl, by simp⟩
  have h1 := scan_inv_step [] none 0 d.x s.x h0
  have h2 := scan_inv_step _ _ 1 d.y s.y h1
  have h3 := scan_inv_step _ _ 2 d.z s.z h2
  simpa [walk_scan] using h3

/-! ### C7, C10, C1: the crossing-time assertion and division guard -/

unseal Rat.inv Rat.mul Rat.add Rat.sub in
/-- C7 counterexample: the claim asserts the fatal `assert(time > 0.0f)` is
unreachable whenever all start weights are nonnegative.  At this concrete
input the start lies exactly on an edge of its triangle (weights
`(1/2, 1/2, 0)`, all nonnegative and summing to 1) and the step leaves the
triangle through that edge, so the selected crossing time is `0` and the
assertion fires (modelled as `none`). -/
theorem C7_counterexample :
    (⟨⟨0, 1, 2⟩, ⟨1/2, 1/2, 0⟩⟩ : WalkPoint ℚ).valid_weights ∧
      triMesh.walk_in_triangle ⟨⟨0, 1, 2⟩, ⟨1/2, 1/2, 0⟩⟩ ⟨0, -1, 0⟩ = none := by
  constructor
  · decide
  · decide

/-- C7 (amended): the selected crossing time of `walk_in_triangle` is
strictly positive — so the fatal assertion on `t > 0` is unreachable —
whenever all start weights are strictly positive (start strictly inside its
triangle).  With a start weight exactly 0 (start on an edge or vertex, still
inside-or-on-boundary) a zero crossing time is reachable, as the
counterexample shows, so "only when the start point was already outside" is
too strong. -/
theorem C7_amended_time_pos {K : Type} [LinearOrderedField K]
    (m : WalkMesh K) (p : WalkPoint K) (step : Vec3 K)
    (hpos : 0 < p.weights.x ∧ 0 < p.weights.y ∧ 0 < p.weights.z) :
    ∃ e t, m.walk_in_triangle p step = some (e, t) ∧ 0 < t := by
  obtain ⟨hx, hy, hz⟩ := hpos
  rcases walk_scan_inv (m.dest_bary p step) p.weights with
    ⟨hne, _⟩ | ⟨q, hqmem, hqq, hacc, _⟩
  · refine ⟨⟨p.indices, p.weights + (1 : K) •
      (m.dest_bary p step - p.weights)⟩, 1, ?_, one_pos⟩
    simp only [WalkMesh.walk_in_triangle, hne]
    rw [if_neg (by norm_num : ¬(1 : K) ≤ 0)]
  · have hqpos : 0 < crossing_time q.2.1 q.2.2 := by
      have hmem3 : q = (0, (m.dest_bary p step).x, p.weights.x) ∨
          q = (1, (m.dest_bary p step).y, p.weights.y) ∨
          q = (2, (m.dest_bary p step).z, p.weights.z) := by
        simpa using hqmem
      have hd : ¬(0 < q.2.1) := hqq.1
      have hs : 0 < q.2.2 := by
        rcases hmem3 with h | h | h <;> subst h <;> assumption
      have hden : q.2.1 - q.2.2 < 0 := by
        have := not_lt.mp hd
        linarith
      have hnum : -q.2.2 < 0 := by linarith
      exact div_pos_of_neg_of_neg hnum hden
    have htimepos : 0 < min (1 : K) (crossing_time q.2.1 q.2.2) :=
      lt_min one_pos hqpos
    have hmem3 : q = (0, (m.dest_bary p step).x, p.weights.x) ∨
        q = (1, (m.dest_bary p step).y, p.weights.y) ∨
        q = (2, (m.dest_bary p step).z, p.weights.z) := by
      simpa using hqmem
    rcases hmem3 with h | h | h <;> subst h <;>
      [skip; skip; skip] <;>
      (simp only [WalkMesh.walk_in_triangle, hacc]
       rw [if_neg (not_le.mpr htimepos)]
       exact ⟨_, _, rfl, htimepos⟩)

unseal Rat.inv Rat.mul Rat.add Rat.sub in
/-- C7 witness for the amended theorem: strictly interior start point. -/
theorem C7_witness :
    ∃ e t, triMesh.walk_in_triangle ⟨⟨0, 1, 2⟩, ⟨1/3, 1/3, 1/3⟩⟩ ⟨0, -5, 0⟩ =
      some (e, t) ∧ 0 < t :=
  C7_amended_time_pos triMesh ⟨⟨0, 1, 2⟩, ⟨1/3, 1/3, 1/3⟩⟩ ⟨0, -5, 0⟩
    (by decide)

unseal Rat.inv Rat.mul Rat.add Rat.sub in
/-- C10 counterexample: the claim asserts that whenever a component's
destination weight is `≤ 0` the crossing-time denominator
`dest_weight - start_weight` is nonzero.  For a valid start lying on an edge
(third weight exactly 0) and a zero step, the third destination weight is
also exactly 0, so the guard `dest_w > 0` does not fire and the denominator
is exactly 0. -/
theorem C10_counterexample :
    (⟨⟨0, 1, 2⟩, ⟨1/2, 1/2, 0⟩⟩ : WalkPoint ℚ).valid_weights ∧
      (triMesh.dest_bary ⟨⟨0, 1, 2⟩, ⟨1/2, 1/2, 0⟩⟩ ⟨0, 0, 0⟩).z ≤ 0 ∧
      (triMesh.dest_bary ⟨⟨0, 1, 2⟩, ⟨1/2, 1/2, 0⟩⟩ ⟨0, 0, 0⟩).z -
        (⟨⟨0, 1, 2⟩, ⟨1/2, 1/2, 0⟩⟩ : WalkPoint ℚ).weights.z = 0 := by
  refine ⟨by decide, by decide, by decide⟩

/-- C10 (amended): in the per-component crossing test, for a valid start the
denominator can vanish under the `dest_w ≤ 0` guard only when the start and
destination weights of that component are both exactly 0 (movement along the
edge the point already lies on); in that case the component is never the
selected minimum, so the division result is never used. -/
theorem C10_amended_division_guard {K : Type} [LinearOrderedField K]
    (m : WalkMesh K) (p : WalkPoint K) (step : Vec3 K)
    (hval : p.valid_weights) :
    (∀ i, i < 3 → (m.dest_bary p step).nth i ≤ 0 →
      (m.dest_bary p step).nth i - p.weights.nth i ≠ 0 ∨
        (p.weights.nth i = 0 ∧ (m.dest_bary p step).nth i = 0)) ∧
    (∀ t i, walk_scan (m.dest_bary p step) p.weights = some (t, i) →
      (m.dest_bary p step).nth i - p.weights.nth i ≠ 0) := by
  obtain ⟨hx, hy, hz, _⟩ := hval
  constructor
  · intro i hi hd
    by_cases hden : (m.dest_bary p step).nth i - p.weights.nth i = 0
    · right
      have hs : 0 ≤ p.weights.nth i := by
        interval_cases i <;> simpa [Vec3.nth]
      constructor <;> linarith [sub_eq_zero.mp hden]
    · left
      exact hden
  · intro t i hacc
    rcases walk_scan_inv (m.dest_bary p step) p.weights with
      ⟨hne, _⟩ | ⟨q, hqmem, hqq, hacc', _⟩
    · rw [hne] at hacc
      exact absurd hacc (by simp)
    · rw [hacc'] at hacc
      have hq1 : q.1 = i := (Prod.mk.injEq _ _ _ _).mp (Option.some.injEq _ _ ▸ hacc :
        (crossing_time q.2.1 q.2.2, q.1) = (t, i)) |>.2
      have hmem3 : q = (0, (m.dest_bary p step).x, p.weights.x) ∨
          q = (1, (m.dest_bary p step).y, p.weights.y) ∨
          q = (2, (m.dest_bary p step).z, p.weights.z) := by
        simpa using hqmem
      rcases hmem3 with h | h | h <;> subst h <;> rw [← hq1] <;>
        simpa [Vec3.nth] using hqq.2

unseal Rat.inv Rat.mul Rat.add Rat.sub in
/-- C10 witness for the amended theorem. -/
theorem C10_witness :
    (∀ i, i < 3 →
      (triMesh.dest_bary ⟨⟨0, 1, 2⟩, ⟨1/2, 1/2, 0⟩⟩ ⟨0, 1, 0⟩).nth i ≤ 0 →
      (triMesh.dest_bary ⟨⟨0, 1, 2⟩, ⟨1/2, 1/2, 0⟩⟩ ⟨0, 1, 0⟩).nth i -
          (⟨⟨0, 1, 2⟩, ⟨1/2, 1/2, 0⟩⟩ : WalkPoint ℚ).weights.nth i ≠ 0 ∨
        ((⟨⟨0, 1, 2⟩, ⟨1/2, 1/2, 0⟩⟩ : WalkPoint ℚ).weights.nth i = 0 ∧
          (triMesh.dest_bary ⟨⟨0, 1, 2⟩, ⟨1/2, 1/2, 0⟩⟩ ⟨0, 1, 0⟩).nth i = 0)) ∧
    (∀ t i, walk_scan (triMesh.dest_bary ⟨⟨0, 1, 2⟩, ⟨1/2, 1/2, 0⟩⟩ ⟨0, 1, 0⟩)
        (⟨⟨0, 1, 2⟩, ⟨1/2, 1/2, 0⟩⟩ : WalkPoint ℚ).weights = some (t, i) →
      (triMesh.dest_bary ⟨⟨0, 1, 2⟩, ⟨1/2, 1/2, 0⟩⟩ ⟨0, 1, 0⟩).nth i -
        (⟨⟨0, 1, 2⟩, ⟨1/2, 1/2, 0⟩⟩ : WalkPoint ℚ).weights.nth i ≠ 0) :=
  C10_amended_division_guard triMesh ⟨⟨0, 1, 2⟩, ⟨1/2, 1/2, 0⟩⟩ ⟨0, 1, 0⟩
    (by decide)

unseal Rat.inv Rat.mul Rat.add Rat.sub in
/-- C1 counterexample: the claim promises, for any valid start (weights
nonnegative, summing to 1) whose step crosses exactly one triangle edge,
a returned fraction `t ∈ (0,1]`.  Here the start is valid and exactly one
destination weight is non-positive (component 2; the other two are strictly
positive), yet the crossed component's start weight is 0, hence the computed
crossing time is `0 ∉ (0,1]` and the function hits the fatal `assert(time >
0.0f)` instead of returning (modelled as `none`). -/
theorem C1_counterexample :
    (⟨⟨0, 1, 2⟩, ⟨1/2, 1/2, 0⟩⟩ : WalkPoint ℚ).valid_weights ∧
      (triMesh.dest_bary ⟨⟨0, 1, 2⟩, ⟨1/2, 1/2, 0⟩⟩ ⟨0, -2, 0⟩).nth 2 ≤ 0 ∧
      0 < (triMesh.dest_bary ⟨⟨0, 1, 2⟩, ⟨1/2, 1/2, 0⟩⟩ ⟨0, -2, 0⟩).nth 0 ∧
      0 < (triMesh.dest_bary ⟨⟨0, 1, 2⟩, ⟨1/2, 1/2, 0⟩⟩ ⟨0, -2, 0⟩).nth 1 ∧
      triMesh.walk_in_triangle ⟨⟨0, 1, 2⟩, ⟨1/2, 1/2, 0⟩⟩ ⟨0, -2, 0⟩ = none := by
  refine ⟨by decide, by decide, by decide, by decide, by decide⟩

/-- C1 (amended): for every valid start WalkPoint and step such that the
straight-line destination leaves through exactly one triangle edge
(exactly one destination weight non-positive) *and the crossed component's
start weight is strictly positive*, `walk_in_triangle` returns the fraction
`t = -start_w / (dest_w - start_w)` for the crossed component, with
`t ∈ (0,1]`, and a WalkPoint whose third weight is exactly 0 and whose index
triple is the cyclic permutation of the start's triple placing the crossed
edge in the (first, second) slots. -/
theorem C1_amended_single_crossing {K : Type} [LinearOrderedField K]
    (m : WalkMesh K) (p : WalkPoint K) (step : Vec3 K) (i : ℕ)
    (hval : p.valid_weights) (hi : i < 3)
    (hcross : (m.dest_bary p step).nth i ≤ 0)
    (hothers : ∀ j, j < 3 → j ≠ i → 0 < (m.dest_bary p step).nth j)
    (hpos : 0 < p.weights.nth i) :
    ∃ e, m.walk_in_triangle p step =
        some (e, crossing_time ((m.dest_bary p step).nth i) (p.weights.nth i)) ∧
      0 < crossing_time ((m.dest_bary p step).nth i) (p.weights.nth i) ∧
      crossing_time ((m.dest_bary p step).nth i) (p.weights.nth i) ≤ 1 ∧
      e.weights.z = 0 ∧
      e.indices.x = p.indices.nth ((i + 1) % 3) ∧
      e.indices.y = p.indices.nth ((i + 2) % 3) ∧
      e.indices.z = p.indices.nth i := by
  have hTpos : ∀ d s : K, d ≤ 0 → 0 < s → 0 < crossing_time d s := by
    intro d s hd hs
    exact div_pos_of_neg_of_neg (by linarith) (by linarith)
  have hTle : ∀ d s : K, d ≤ 0 → 0 < s → crossing_time d s ≤ 1 := by
    intro d s hd hs
    have h1 : crossing_time d s = s / (s - d) := by
      rw [crossing_time, ← neg_sub s d, div_neg, neg_div, neg_neg]
    rw [h1]
    rw [div_le_one (by linarith)]
    linarith
  interval_cases i
  · -- crossed component 0
    have h1 := hothers 1 (by norm_num) (by norm_num)
    have h2 := hothers 2 (by norm_num) (by norm_num)
    simp only [Vec3.nth] at hcross hpos h1 h2 ⊢
    have hq : qualifies (m.dest_bary p step).x p.weights.x :=
      ⟨not_lt.mpr hcross, by intro h; have := sub_eq_zero.mp h; linarith⟩
    rcases walk_scan_inv (m.dest_bary p step) p.weights with
      ⟨_, hall⟩ | ⟨q, hqmem, hqq, hacc, _⟩
    · exact absurd hq (by simpa using hall (0, (m.dest_bary p step).x, p.weights.x) (by simp))
    · have hmem3 : q = (0, (m.dest_bary p step).x, p.weights.x) ∨
          q = (1, (m.dest_bary p step).y, p.weights.y) ∨
          q = (2, (m.dest_bary p step).z, p.weights.z) := by
        simpa using hqmem
      rcases hmem3 with h | h | h
      · subst h
        have hp' := hTpos _ _ hcross hpos
        have hl' := hTle _ _ hcross hpos
        simp only [WalkMesh.walk_in_triangle, hacc]
        rw [min_eq_right hl', if_neg (not_le.mpr hp')]
        exact ⟨_, rfl, hp', hl', rfl, rfl, rfl, rfl⟩
      · subst h
        exact absurd hqq.1 (by simpa using h1)
      · subst h
        exact absurd hqq.1 (by simpa using h2)
  · -- crossed component 1
    have h0 := hothers 0 (by norm_num) (by norm_num)
    have h2 := hothers 2 (by norm_num) (by norm_num)
    simp only [Vec3.nth] at hcross hpos h0 h2 ⊢
    have hq : qualifies (m.dest_bary p step).y p.weights.y :=
      ⟨not_lt.mpr hcross, by intro h; have := sub_eq_zero.mp h; linarith⟩
    rcases walk_scan_inv (m.dest_bary p step) p.weights with
      ⟨_, hall⟩ | ⟨q, hqmem, hqq, hacc, _⟩
    · exact absurd hq (by simpa using hall (1, (m.dest_bary p step).y, p.weights.y) (by simp))
    · have hmem3 : q = (0, (m.dest_bary p step).x, p.weights.x) ∨
          q = (1, (m.dest_bary p step).y, p.weights.y) ∨
          q = (2, (m.dest_bary p step).z, p.weights.z) := by
        simpa using hqmem
      rcases hmem3 with h | h | h
      · subst h
        exact absurd hqq.1 (by simpa using h0)
      · subst h
        have hp' := hTpos _ _ hcross hpos
        have hl' := hTle _ _ hcross hpos
        simp only [WalkMesh.walk_in_triangle, hacc]
        rw [min_eq_right hl', if_neg (not_le.mpr hp')]
        exact ⟨_, rfl, hp', hl', rfl, rfl, rfl, rfl⟩
      · subst h
        exact absurd hqq.1 (by simpa using h2)
  · -- crossed component 2
    have h0 := hothers 0 (by norm_num) (by norm_num)
    have h1 := hothers 1 (by norm_num) (by norm_num)
    simp only [Vec3.nth] at hcross hpos h0 h1 ⊢
    have hq : qualifies (m.dest_bary p step).z p.weights.z :=
      ⟨not_lt.mpr hcross, by intro h; have := sub_eq_zero.mp h; linarith⟩
    rcases walk_scan_inv (m.dest_bary p step) p.weights with
      ⟨_, hall⟩ | ⟨q, hqmem, hqq, hacc, _⟩
    · exact absurd hq (by simpa using hall (2, (m.dest_bary p step).z, p.weights.z) (by simp))
    · have hmem3 : q = (0, (m.dest_bary p step).x, p.weights.x) ∨
          q = (1, (m.dest_bary p step).y, p.weights.y) ∨
          q = (2, (m.dest_bary p step).z, p.weights.z) := by
        simpa using hqmem
      rcases hmem3 with h | h | h
      · subst h
        exact absurd hqq.1 (by simpa using h0)
      · subst h
        exact absurd hqq.1 (by simpa using h1)
      · subst h
        have hp' := hTpos _ _ hcross hpos
        have hl' := hTle _ _ hcross hpos
        simp only [WalkMesh.walk_in_triangle, hacc]
        rw [min_eq_right hl', if_neg (not_le.mpr hp')]
        exact ⟨_, rfl, hp', hl', rfl, rfl, rfl, rfl⟩

unseal Rat.inv Rat.mul Rat.add Rat.sub in
/-- C1 witness for the amended theorem: start with all weights positive and a
step leaving through the edge opposite vertex 2 only. -/
theorem C1_witness :
    ∃ e, triMesh.walk_in_triangle ⟨⟨0, 1, 2⟩, ⟨1/2, 1/4, 1/4⟩⟩ ⟨0, -1, 0⟩ =
        some (e, crossing_time
          ((triMesh.dest_bary ⟨⟨0, 1, 2⟩, ⟨1/2, 1/4, 1/4⟩⟩ ⟨0, -1, 0⟩).nth 2)
          ((⟨⟨0, 1, 2⟩, ⟨1/2, 1/4, 1/4⟩⟩ : WalkPoint ℚ).weights.nth 2)) ∧
      0 < crossing_time
          ((triMesh.dest_bary ⟨⟨0, 1, 2⟩, ⟨1/2, 1/4, 1/4⟩⟩ ⟨0, -1, 0⟩).nth 2)
          ((⟨⟨0, 1, 2⟩, ⟨1/2, 1/4, 1/4⟩⟩ : WalkPoint ℚ).weights.nth 2) ∧
      crossing_time
          ((triMesh.dest_bary ⟨⟨0, 1, 2⟩, ⟨1/2, 1/4, 1/4⟩⟩ ⟨0, -1, 0⟩).nth 2)
          ((⟨⟨0, 1, 2⟩, ⟨1/2, 1/4, 1/4⟩⟩ : WalkPoint ℚ).weights.nth 2) ≤ 1 ∧
      e.weights.z = 0 ∧
      e.indices.x = (⟨0, 1, 2⟩ : UVec3).nth ((2 + 1) % 3) ∧
      e.indices.y = (⟨0, 1, 2⟩ : UVec3).nth ((2 + 2) % 3) ∧
      e.indices.z = (⟨0, 1, 2⟩ : UVec3).nth 2 :=
  C1_amended_single_crossing triMesh ⟨⟨0, 1, 2⟩, ⟨1/2, 1/4, 1/4⟩⟩ ⟨0, -1, 0⟩ 2
    (by decide) (by norm_num) (by decide) (by decide) (by decide)

/-! ### C2: nearest_walk_point is a first-wins argmin over the candidates -/

/-- The strict-less fold of `nearest_walk_point`, started from a recorded
candidate `a`, either keeps `a` (when nothing later is strictly closer) or
returns the first later candidate that achieves the minimum squared
distance. -/
theorem foldl_update_closest_spec (l : List (K × WalkPoint K))
    (a : K × WalkPoint K) :
    (l.foldl update_closest (some a) = some a ∧ ∀ c ∈ l, a.1 ≤ c.1) ∨
    (∃ pre c suf, l = pre ++ c :: suf ∧
      l.foldl update_closest (some a) = some c ∧ c.1 < a.1 ∧
      (∀ b ∈ l, c.1 ≤ b.1) ∧ ∀ b ∈ pre, c.1 < b.1) := by
  induction l generalizing a with
  | nil =>
    left
    exact ⟨rfl, by simp⟩
  | cons x xs ih =>
    have hstep : update_closest (some a) x =
        if x.1 < a.1 then some x else some a := rfl
    by_cases hlt : x.1 < a.1
    · have hfold : (x :: xs).foldl update_closest (some a) =
          xs.foldl update_closest (some x) := by
        simp [List.foldl_cons, hstep, hlt]
      rcases ih x with ⟨heq, hmin⟩ | ⟨pre, c, suf, hdec, hres, hlt2, hmin, hpre⟩
      · right
        refine ⟨[], x, xs, by simp, by rw [hfold, heq], hlt, ?_, by simp⟩
        intro b hb
        rcases List.mem_cons.mp hb with rfl | hb
        · exact le_refl _
        · exact hmin b hb
      · right
        refine ⟨x :: pre, c, suf, by rw [hdec]; simp, by rw [hfold, hres],
          lt_trans hlt2 hlt, ?_, ?_⟩
        · intro b hb
          rcases List.mem_cons.mp hb with rfl | hb
          · exact le_of_lt hlt2
          · exact hmin b (hdec ▸ hb)
        · intro b hb
          rcases List.mem_cons.mp hb with rfl | hb
          · exact hlt2
          · exact hpre b hb
    · have hfold : (x :: xs).foldl update_closest (some a) =
          xs.foldl update_closest (some a) := by
        simp [List.foldl_cons, hstep, hlt]
      rcases ih a with ⟨heq, hmin⟩ | ⟨pre, c, suf, hdec, hres, hlt2, hmin, hpre⟩
      · left
        refine ⟨by rw [hfold, heq], ?_⟩
        intro b hb
        rcases List.mem_cons.mp hb with rfl | hb
        · exact not_lt.mp hlt
        · exact hmin b hb
      · right
        refine ⟨x :: pre, c, suf, by rw [hdec]; simp, by rw [hfold, hres],
          hlt2, ?_, ?_⟩
        · intro b hb
          rcases List.mem_cons.mp hb with rfl | hb
          · exact le_of_lt (lt_of_lt_of_le hlt2 (not_lt.mp hlt))
          · exact hmin b (hdec ▸ hb)
        · intro b hb
          rcases List.mem_cons.mp hb with rfl | hb
          · exact lt_of_lt_of_le hlt2 (not_lt.mp hlt)
          · exact hpre b hb

/-- Each triangle contributes at least one candidate to the scan. -/
theorem triangle_candidates_ne_nil (m : WalkMesh K) (wp : Vec3 K) (t : UVec3) :
    m.triangle_candidates wp t ≠ [] := by
  unfold WalkMesh.triangle_candidates
  dsimp only
  split <;> simp

/-- The index triple of every candidate is a cyclic permutation of a triangle
of the mesh. -/
theorem nearest_candidates_indices (m : WalkMesh K) (wp : Vec3 K)
    (c : K × WalkPoint K) (hc : c ∈ m.nearest_candidates wp) :
    ∃ t ∈ m.triangles, c.2.indices ∈ t.cyclicPerms := by
  unfold WalkMesh.nearest_candidates at hc
  rcases List.mem_flatten.mp hc with ⟨l, hl, hcl⟩
  rcases List.mem_map.mp hl with ⟨t, ht, rfl⟩
  refine ⟨t, ht, ?_⟩
  unfold WalkMesh.triangle_candidates at hcl
  dsimp only at hcl
  split at hcl
  · simp only [List.mem_singleton] at hcl
    subst hcl
    simp [UVec3.cyclicPerms]
  · simp only [List.mem_cons, List.mem_singleton, List.not_mem_nil, or_false] at hcl
    rcases hcl with rfl | rfl | rfl <;>
      simp [WalkMesh.check_edge, UVec3.cyclicPerms]

/-- C2: for every mesh whose triangles index the vertex buffer and every
query point, `nearest_walk_point` fails fatally on an empty triangle list,
and otherwise returns the candidate achieving the globally minimal squared
distance over all triangles' interior plane-projections and clamped
edge/vertex candidates, the first such candidate in iteration order
(distances compared with strict less-than). -/
theorem C2_nearest_walk_point_argmin {K : Type} [LinearOrderedField K]
    (m : WalkMesh K) (world_point : Vec3 K)
    (htri : ∀ t ∈ m.triangles, t.x < m.vertices.length ∧
      t.y < m.vertices.length ∧ t.z < m.vertices.length) :
    (m.triangles = [] → m.nearest_walk_point world_point = none) ∧
    (m.triangles ≠ [] →
      ∃ pre c suf, m.nearest_candidates world_point = pre ++ c :: suf ∧
        m.nearest_walk_point world_point = some c.2 ∧
        (∀ b ∈ m.nearest_candidates world_point, c.1 ≤ b.1) ∧
        ∀ b ∈ pre, c.1 < b.1) := by
  constructor
  · intro hempty
    unfold WalkMesh.nearest_walk_point WalkMesh.nearest_candidates
    rw [hempty]
    rfl
  · intro hne
    obtain ⟨t0, ts, hts⟩ := List.exists_cons_of_ne_nil hne
    have hcne : m.nearest_candidates world_point ≠ [] := by
      unfold WalkMesh.nearest_candidates
      rw [hts]
      simp only [List.map_cons, List.flatten_cons]
      intro h
      exact triangle_candidates_ne_nil m world_point t0
        (List.append_eq_nil.mp h).1
    obtain ⟨c0, cs, hcs⟩ := List.exists_cons_of_ne_nil hcne
    have hrange : ∀ c ∈ m.nearest_candidates world_point,
        c.2.indices.x < m.vertices.length ∧
        c.2.indices.y < m.vertices.length ∧
        c.2.indices.z < m.vertices.length := by
      intro c hc
      rcases nearest_candidates_indices m world_point c hc with ⟨t, ht, hperm⟩
      obtain ⟨h1, h2, h3⟩ := htri t ht
      simp only [UVec3.cyclicPerms, List.mem_cons, List.not_mem_nil,
        or_false] at hperm
      rcases hperm with heq | heq | heq <;> rw [heq] <;>
        exact ⟨by assumption, by assumption, by assumption⟩
    have hfold0 : (m.nearest_candidates world_point).foldl update_closest none =
        cs.foldl update_closest (some c0) := by
      rw [hcs]
      rfl
    rcases foldl_update_closest_spec cs c0 with
      ⟨heq, hmin⟩ | ⟨pre, c, suf, hdec, hres, hlt2, hmin, hpre⟩
    · refine ⟨[], c0, cs, by rw [hcs]; rfl, ?_, ?_, by simp⟩
      · unfold WalkMesh.nearest_walk_point
        rw [hfold0, heq]
        have hc0mem : c0 ∈ m.nearest_candidates world_point := by
          rw [hcs]; exact List.mem_cons_self _ _
        obtain ⟨h1, h2, h3⟩ := hrange c0 hc0mem
        obtain ⟨cd, cw⟩ := c0
        dsimp only
        rw [if_pos ⟨h1, h2, h3⟩]
      · intro b hb
        rw [hcs] at hb
        rcases List.mem_cons.mp hb with rfl | hb
        · exact le_refl _
        · exact hmin b hb
    · refine ⟨c0 :: pre, c, suf, by rw [hcs, hdec]; rfl, ?_, ?_, ?_⟩
      · unfold WalkMesh.nearest_walk_point
        rw [hfold0, hres]
        have hcmem : c ∈ m.nearest_candidates world_point := by
          rw [hcs, hdec]
          exact List.mem_cons.mpr (Or.inr
            (List.mem_append.mpr (Or.inr (List.mem_cons_self _ _))))
        obtain ⟨h1, h2, h3⟩ := hrange c hcmem
        obtain ⟨cd, cw⟩ := c
        dsimp only
        rw [if_pos ⟨h1, h2, h3⟩]
      · intro b hb
        rw [hcs] at hb
        rcases List.mem_cons.mp hb with rfl | hb
        · exact le_of_lt hlt2
        · exact hmin b hb
      · intro b hb
        rcases List.mem_cons.mp hb with rfl | hb
        · exact hlt2
        · exact hpre b hb

unseal Rat.inv Rat.mul Rat.add Rat.sub in
/-- C2 witness: the concrete one-triangle mesh and a query point above the
triangle's interior. -/
theorem C2_witness :
    (triMesh.triangles = [] → triMesh.nearest_walk_point ⟨1/5, 1/5, 5⟩ = none) ∧
    (triMesh.triangles ≠ [] →
      ∃ pre c suf, triMesh.nearest_candidates ⟨1/5, 1/5, 5⟩ = pre ++ c :: suf ∧
        triMesh.nearest_walk_point ⟨1/5, 1/5, 5⟩ = some c.2 ∧
        (∀ b ∈ triMesh.nearest_candidates ⟨1/5, 1/5, 5⟩, c.1 ≤ b.1) ∧
        ∀ b ∈ pre, c.1 < b.1) :=
  C2_nearest_walk_point_argmin triMesh ⟨1/5, 1/5, 5⟩ (by decide)

/-! ### Quaternions and `cross_edge` (specialized to `ℝ` because vector
normalization and `glm::rotation` take square roots) -/

/-- `glm::quat` with components `(w, x, y, z)`. -/
structure Quat where
  w : ℝ
  x : ℝ
  y : ℝ
  z : ℝ

namespace Quat

/-- Hamilton product. -/
def mul (p q : Quat) : Quat :=
  ⟨p.w * q.w - p.x * q.x - p.y * q.y - p.z * q.z,
   p.w * q.x + p.x * q.w + p.y * q.z - p.z * q.y,
   p.w * q.y - p.x * q.z + p.y * q.w + p.z * q.x,
   p.w * q.z + p.x * q.y - p.y * q.x + p.z * q.w⟩

def conj (q : Quat) : Quat := ⟨q.w, -q.x, -q.y, -q.z⟩

/-- `glm::quat(1.0f, 0.0f, 0.0f, 0.0f)`: the identity rotation. -/
def one : Quat := ⟨1, 0, 0, 0⟩

def normSq (q : Quat) : ℝ := q.w ^ 2 + q.x ^ 2 + q.y ^ 2 + q.z ^ 2

/-- The rotation action of a unit quaternion on a vector: the vector part of
`q * (0, v) * conj q`. -/
def rotate (q : Quat) (v : Vec3 ℝ) : Vec3 ℝ :=
  let p := mul (mul q ⟨0, v.x, v.y, v.z⟩) (conj q)
  ⟨p.x, p.y, p.z⟩

end Quat

/-- `glm::normalize`: scale by the inverse length. -/
noncomputable def glm.normalize (v : Vec3 ℝ) : Vec3 ℝ :=
  (1 / Real.sqrt (glm.dot v v)) • v

/-- `glm::angleAxis(angle, axis) = (cos(angle/2), sin(angle/2) * axis)`. -/
noncomputable def glm.angleAxis (angle : ℝ) (axis : Vec3 ℝ) : Quat :=
  ⟨Real.cos (angle * 0.5), Real.sin (angle * 0.5) * axis.x,
   Real.sin (angle * 0.5) * axis.y, Real.sin (angle * 0.5) * axis.z⟩

open Classical in
/-- `glm::rotation(orig, dest)` (glm/gtx/quaternion.inl), the unit quaternion
rotating unit vector `orig` onto unit vector `dest`.  The source guards its
branches with `epsilon<float>()`, a float-roundoff tolerance: it returns the
identity when `cosTheta >= 1 - epsilon` and takes the antipodal branch when
`cosTheta < -1 + epsilon`; in the exact real model the tolerance degenerates
to the exact conditions `1 ≤ cosTheta` and `cosTheta ≤ -1`.  Otherwise the
Stan Melax half-angle construction is translated verbatim. -/
noncomputable def glm.rotation (orig dest : Vec3 ℝ) : Quat :=
  let cosTheta := glm.dot orig dest
  if 1 ≤ cosTheta then
    Quat.one
  else if cosTheta ≤ -1 then
    let rotationAxis0 := glm.cross ⟨0, 0, 1⟩ orig
    let rotationAxis1 :=
      if glm.length2 rotationAxis0 = 0 then glm.cross ⟨1, 0, 0⟩ orig
      else rotationAxis0
    glm.angleAxis Real.pi (glm.normalize rotationAxis1)
  else
    let rotationAxis := glm.cross orig dest
    let s := Real.sqrt ((1 + cosTheta) * 2)
    let invs := 1 / s
    ⟨s * 0.5, rotationAxis.x * invs, rotationAxis.y * invs,
     rotationAxis.z * invs⟩

open Classical in
/-- `WalkMesh::cross_edge` (lines 198-242).  The `assert(start.weights.z ==
0.0f)` is modelled by returning `none` when violated; the `-1U` sentinel for
"no twin triangle" becomes the `Option` returned by `next_vertex`. -/
noncomputable def WalkMesh.cross_edge (m : WalkMesh ℝ) (start : WalkPoint ℝ) :
    Option (Bool × WalkPoint ℝ × Quat) :=
  if start.weights.z = 0 then
    match m.next_vertex start.indices.y start.indices.x with
    | some d =>
        let twin_triangle : UVec3 := ⟨start.indices.y, start.indices.x, d⟩
        let a := m.vtx twin_triangle.x
        let b := m.vtx twin_triangle.y
        let c := m.vtx twin_triangle.z
        let endWeights := barycentric_weights a b c (m.to_world_point start)
        let new_norm := glm.normalize (glm.cross (b - a) (c - a))
        let a0 := m.vtx start.indices.x
        let b0 := m.vtx start.indices.y
        let c0 := m.vtx start.indices.z
        let old_norm := glm.normalize (glm.cross (b0 - a0) (c0 - a0))
        some (true, ⟨twin_triangle, endWeights⟩, glm.rotation old_norm new_norm)
    | none => some (false, start, Quat.one)
  else none

/-- Conjugation action of `(w, u)`, expanded: the standard
`(w² − u·u) v + 2 (u·v) u + 2 w (u × v)` form. -/
theorem Quat.rotate_formula (w : ℝ) (u v : Vec3 ℝ) :
    Quat.rotate ⟨w, u.x, u.y, u.z⟩ v =
      (w ^ 2 - glm.dot u u) • v + (2 * glm.dot u v) • u +
        (2 * w) • glm.cross u v := by
  ext <;> simp [Quat.rotate, Quat.mul, Quat.conj, glm.dot, glm.cross] <;> ring

/-- A normalized nonzero vector is a unit vector. -/
theorem dot_normalize_self {v : Vec3 ℝ} (hv : v ≠ 0) :
    glm.dot (glm.normalize v) (glm.normalize v) = 1 := by
  have hL : 0 < glm.dot v v := length2_pos_of_ne_zero hv
  have hs : Real.sqrt (glm.dot v v) ^ 2 = glm.dot v v := Real.sq_sqrt hL.le
  have hsne : Real.sqrt (glm.dot v v) ≠ 0 := by
    intro h
    rw [h] at hs
    simp at hs
    exact absurd hs.symm (ne_of_gt hL)
  have hexp : glm.dot (glm.normalize v) (glm.normalize v) =
      (1 / Real.sqrt (glm.dot v v)) ^ 2 * glm.dot v v := by
    simp [glm.normalize, glm.dot]
    ring
  rw [hexp, div_pow, one_pow, hs]
  field_simp

@[ext] theorem Quat.ext_wxyz {p q : Quat} (hw : p.w = q.w) (hx : p.x = q.x)
    (hy : p.y = q.y) (hz : p.z = q.z) : p = q := by
  cases p; cases q; cases hw; cases hx; cases hy; cases hz; rfl

theorem dot_smul_left (t : ℝ) (u v : Vec3 ℝ) :
    glm.dot (t • u) v = t * glm.dot u v := by
  simp [glm.dot]
  ring

theorem dot_smul_both (t : ℝ) (u v : Vec3 ℝ) :
    glm.dot (t • u) (t • v) = t ^ 2 * glm.dot u v := by
  simp [glm.dot]
  ring

theorem cross_smul_left (t : ℝ) (u v : Vec3 ℝ) :
    glm.cross (t • u) v = t • glm.cross u v := by
  ext <;> simp [glm.cross] <;> ring

/-- Two unit vectors whose dot product is at least 1 are equal. -/
theorem unit_dot_ge_one_eq {o d : Vec3 ℝ} (ho : glm.dot o o = 1)
    (hd : glm.dot d d = 1) (h1 : 1 ≤ glm.dot o d) : o = d := by
  simp only [glm.dot] at ho hd h1
  have hx : (o.x - d.x) ^ 2 = 0 := by
    nlinarith [sq_nonneg (o.y - d.y), sq_nonneg (o.z - d.z)]
  have hy : (o.y - d.y) ^ 2 = 0 := by
    nlinarith [sq_nonneg (o.x - d.x), sq_nonneg (o.z - d.z)]
  have hz : (o.z - d.z) ^ 2 = 0 := by
    nlinarith [sq_nonneg (o.x - d.x), sq_nonneg (o.y - d.y)]
  ext
  · exact sub_eq_zero.mp (pow_eq_zero_iff (by norm_num : 2 ≠ 0) |>.mp hx)
  · exact sub_eq_zero.mp (pow_eq_zero_iff (by norm_num : 2 ≠ 0) |>.mp hy)
  · exact sub_eq_zero.mp (pow_eq_zero_iff (by norm_num : 2 ≠ 0) |>.mp hz)

/-- Two unit vectors whose dot product is at most -1 are antipodal. -/
theorem unit_dot_le_neg_one_eq {o d : Vec3 ℝ} (ho : glm.dot o o = 1)
    (hd : glm.dot d d = 1) (h2 : glm.dot o d ≤ -1) : d = -o := by
  simp only [glm.dot] at ho hd h2
  have hx : (o.x + d.x) ^ 2 = 0 := by
    nlinarith [sq_nonneg (o.y + d.y), sq_nonneg (o.z + d.z)]
  have hy : (o.y + d.y) ^ 2 = 0 := by
    nlinarith [sq_nonneg (o.x + d.x), sq_nonneg (o.z + d.z)]
  have hz : (o.z + d.z) ^ 2 = 0 := by
    nlinarith [sq_nonneg (o.x + d.x), sq_nonneg (o.y + d.y)]
  have hx' := pow_eq_zero_iff (by norm_num : 2 ≠ 0) |>.mp hx
  have hy' := pow_eq_zero_iff (by norm_num : 2 ≠ 0) |>.mp hy
  have hz' := pow_eq_zero_iff (by norm_num : 2 ≠ 0) |>.mp hz
  ext <;> simp <;> linarith

/-- Rotation by π about a unit axis orthogonal to `o` sends `o` to `-o`. -/
theorem rotate_angleAxis_pi {o u1 : Vec3 ℝ} (ho : glm.dot o o = 1)
    (hu1 : u1 ≠ 0) (hu1o : glm.dot u1 o = 0) :
    Quat.rotate (glm.angleAxis Real.pi (glm.normalize u1)) o = -o ∧
      Quat.normSq (glm.angleAxis Real.pi (glm.normalize u1)) = 1 := by
  have hhalf : Real.pi * 0.5 = Real.pi / 2 := by
    rw [show (0.5 : ℝ) = 1 / 2 by norm_num]
    ring
  have hcos : Real.cos (Real.pi * 0.5) = 0 := by
    rw [hhalf]
    exact Real.cos_pi_div_two
  have hsin : Real.sin (Real.pi * 0.5) = 1 := by
    rw [hhalf]
    exact Real.sin_pi_div_two
  set u := glm.normalize u1 with hu
  have huu : glm.dot u u = 1 := dot_normalize_self hu1
  have huo : glm.dot u o = 0 := by
    rw [hu, glm.normalize, dot_smul_left, hu1o, mul_zero]
  have hax : glm.angleAxis Real.pi u = ⟨0, u.x, u.y, u.z⟩ := by
    ext <;> simp [glm.angleAxis, hcos, hsin]
  rw [hax]
  constructor
  · rw [Quat.rotate_formula, huu, huo]
    ext <;> simp <;> ring
  · simp only [Quat.normSq]
    simp only [glm.dot] at huu
    nlinarith [huu]

/-- The central fact about `glm::rotation` on unit vectors: the returned
quaternion is a unit quaternion whose rotation action sends `orig` to
`dest`. -/
theorem glm_rotation_rotates (o d : Vec3 ℝ) (ho : glm.dot o o = 1)
    (hd : glm.dot d d = 1) :
    Quat.rotate (glm.rotation o d) o = d ∧
      Quat.normSq (glm.rotation o d) = 1 := by
  by_cases h1 : 1 ≤ glm.dot o d
  · have heq : o = d := unit_dot_ge_one_eq ho hd h1
    have hrot : glm.rotation o d = Quat.one := by
      simp only [glm.rotation]
      rw [if_pos h1]
    rw [hrot]
    constructor
    · have : Quat.rotate Quat.one o = o := by
        ext <;> simp [Quat.rotate, Quat.mul, Quat.conj, Quat.one] <;> ring
      rw [this]
      exact heq
    · simp [Quat.normSq, Quat.one]
  · by_cases h2 : glm.dot o d ≤ -1
    · -- antipodal branch
      have hdo : d = -o := unit_dot_le_neg_one_eq ho hd h2
      by_cases hax : glm.length2 (glm.cross ⟨0, 0, 1⟩ o) = 0
      · -- the z-axis cross product vanished: o is (0, 0, ±1)
        have hrot : glm.rotation o d =
            glm.angleAxis Real.pi (glm.normalize (glm.cross ⟨1, 0, 0⟩ o)) := by
          simp only [glm.rotation]
          rw [if_neg h1, if_pos h2, if_pos hax]
        have hx0 : o.x = 0 ∧ o.y = 0 := by
          simp only [glm.length2, glm.dot, glm.cross] at hax
          constructor
          · have h : o.x ^ 2 = 0 := by nlinarith [sq_nonneg o.y]
            exact pow_eq_zero_iff (by norm_num : 2 ≠ 0) |>.mp h
          · have h : o.y ^ 2 = 0 := by nlinarith [sq_nonneg o.x]
            exact pow_eq_zero_iff (by norm_num : 2 ≠ 0) |>.mp h
        have haxne : glm.cross ⟨1, 0, 0⟩ o ≠ 0 := by
          intro h
          have h2' : glm.length2 (glm.cross ⟨1, 0, 0⟩ o) = 0 :=
            (length2_eq_zero_iff _).mpr h
          simp only [glm.length2, glm.dot, glm.cross] at h2'
          simp only [glm.dot] at ho
          obtain ⟨hxx, hyy⟩ := hx0
          nlinarith [h2']
        have haxo : glm.dot (glm.cross ⟨1, 0, 0⟩ o) o = 0 := by
          simp [glm.dot, glm.cross]
          ring
        obtain ⟨hr1, hr2⟩ := rotate_angleAxis_pi ho haxne haxo
        rw [hrot, hr1, hr2]
        exact ⟨hdo.symm, rfl⟩
      · have hrot : glm.rotation o d =
            glm.angleAxis Real.pi (glm.normalize (glm.cross ⟨0, 0, 1⟩ o)) := by
          simp only [glm.rotation]
          rw [if_neg h1, if_pos h2, if_neg hax]
        have haxne : glm.cross ⟨0, 0, 1⟩ o ≠ 0 := by
          intro h
          exact hax ((length2_eq_zero_iff _).mpr h)
        have haxo : glm.dot (glm.cross ⟨0, 0, 1⟩ o) o = 0 := by
          simp [glm.dot, glm.cross]
          ring
        obtain ⟨hr1, hr2⟩ := rotate_angleAxis_pi ho haxne haxo
        rw [hrot, hr1, hr2]
        exact ⟨hdo.symm, rfl⟩
    · -- Stan Melax branch
      have hcb1 : -1 < glm.dot o d := not_le.mp h2
      have hcb2 : glm.dot o d < 1 := not_le.mp h1
      have hpos : 0 < (1 + glm.dot o d) * 2 := by linarith
      have hs2 : Real.sqrt ((1 + glm.dot o d) * 2) ^ 2 =
          (1 + glm.dot o d) * 2 := Real.sq_sqrt hpos.le
      have hspos : 0 < Real.sqrt ((1 + glm.dot o d) * 2) :=
        Real.sqrt_pos.mpr hpos
      have hsne : Real.sqrt ((1 + glm.dot o d) * 2) ≠ 0 := ne_of_gt hspos
      set s := Real.sqrt ((1 + glm.dot o d) * 2) with hsdef
      set a := glm.cross o d with ha
      have hrot : glm.rotation o d =
          ⟨s * 0.5, ((1/s) • a).x, ((1/s) • a).y, ((1/s) • a).z⟩ := by
        simp only [glm.rotation]
        rw [if_neg h1, if_neg h2]
        ext <;> simp [← ha, ← hsdef] <;> ring
      have haa : glm.dot a a = 1 - glm.dot o d ^ 2 := by
        have hlag : glm.dot a a =
            glm.dot o o * glm.dot d d - glm.dot o d * glm.dot o d := by
          rw [ha]
          simp [glm.dot, glm.cross]
          ring
        rw [hlag, ho, hd]
        ring
      have hao : glm.dot a o = 0 := by
        rw [ha]
        simp [glm.dot, glm.cross]
        ring
      have hco : glm.cross a o = d - glm.dot o d • o := by
        have ho' : o.x * o.x + o.y * o.y + o.z * o.z = 1 := by
          simpa [glm.dot] using ho
        rw [ha]
        ext
        · simp [glm.cross, glm.dot]
          linear_combination d.x * ho'
        · simp [glm.cross, glm.dot]
          linear_combination d.y * ho'
        · simp [glm.cross, glm.dot]
          linear_combination d.z * ho'
      have h1c : (1 : ℝ) + glm.dot o d ≠ 0 := by linarith
      have hA : (s * 0.5) ^ 2 - (1/s) ^ 2 * (1 - glm.dot o d ^ 2) =
          glm.dot o d := by
        rw [mul_pow, div_pow, one_pow, hs2]
        field_simp
        ring
      constructor
      · rw [hrot, Quat.rotate_formula, dot_smul_both, haa,
          dot_smul_left, hao, cross_smul_left, hco, hA]
        ext <;> simp <;> field_simp [hsne] <;> ring
      · rw [hrot]
        simp only [Quat.normSq]
        have hexp : (s * 0.5) ^ 2 + ((1/s) • a).x ^ 2 + ((1/s) • a).y ^ 2 +
            ((1/s) • a).z ^ 2 = (s * 0.5) ^ 2 + (1/s) ^ 2 * glm.dot a a := by
          simp [glm.dot]
          ring
        rw [hexp, haa, mul_pow, div_pow, one_pow, hs2]
        field_simp
        ring

/-- C4: for every WalkPoint on an edge (third weight 0) whose reverse
directed edge is absent from the adjacency map (a boundary edge),
`cross_edge` returns `false`, the point unchanged, and the identity
rotation. -/
theorem C4_cross_edge_boundary (m : WalkMesh ℝ) (start : WalkPoint ℝ)
    (hz : start.weights.z = 0)
    (hb : m.next_vertex start.indices.y start.indices.x = none) :
    m.cross_edge start = some (false, start, Quat.one) := by
  simp only [WalkMesh.cross_edge]
  rw [if_pos hz, hb]

/-- A concrete single-triangle walk mesh over `ℝ`, used by the `cross_edge`
witnesses. -/
def triMeshR : WalkMesh ℝ :=
  ⟨[⟨0, 0, 0⟩, ⟨1, 0, 0⟩, ⟨0, 1, 0⟩],
   [⟨0, 0, 1⟩, ⟨0, 0, 1⟩, ⟨0, 0, 1⟩],
   [⟨0, 1, 2⟩]⟩

/-- C4 witness: the edge (0,1) of the lone triangle is a boundary edge. -/
theorem C4_witness :
    triMeshR.cross_edge ⟨⟨0, 1, 2⟩, ⟨1/2, 1/2, 0⟩⟩ =
      some (false, ⟨⟨0, 1, 2⟩, ⟨1/2, 1/2, 0⟩⟩, Quat.one) :=
  C4_cross_edge_boundary triMeshR ⟨⟨0, 1, 2⟩, ⟨1/2, 1/2, 0⟩⟩ rfl (by decide)

/-- C3: for every WalkPoint on an edge (third weight 0, weights summing
to 1) whose reverse directed edge `(indices.y, indices.x)` is in the
adjacency map with opposite vertex `dv`, and whose old and new triangles are
non-degenerate, `cross_edge` returns `true`, an end WalkPoint on triangle
`(indices.y, indices.x, dv)` representing exactly the same world position,
and a unit quaternion whose rotation action maps the old triangle's geometric
normal `normalize(cross(b-a, c-a))` to the new triangle's. -/
theorem C3_cross_edge_interior (m : WalkMesh ℝ) (start : WalkPoint ℝ)
    (dv : ℕ) (hz : start.weights.z = 0)
    (hsum : start.weights.x + start.weights.y + start.weights.z = 1)
    (hlook : m.next_vertex start.indices.y start.indices.x = some dv)
    (hnew : glm.cross (m.vtx start.indices.x - m.vtx start.indices.y)
      (m.vtx dv - m.vtx start.indices.y) ≠ 0)
    (hold : glm.cross (m.vtx start.indices.y - m.vtx start.indices.x)
      (m.vtx start.indices.z - m.vtx start.indices.x) ≠ 0) :
    ∃ e rot, m.cross_edge start = some (true, e, rot) ∧
      e.indices = ⟨start.indices.y, start.indices.x, dv⟩ ∧
      m.to_world_point e = m.to_world_point start ∧
      Quat.normSq rot = 1 ∧
      Quat.rotate rot
          (glm.normalize (glm.cross
            (m.vtx start.indices.y - m.vtx start.indices.x)
            (m.vtx start.indices.z - m.vtx start.indices.x))) =
        glm.normalize (glm.cross
          (m.vtx start.indices.x - m.vtx start.indices.y)
          (m.vtx dv - m.vtx start.indices.y)) := by
  have hy : start.weights.y = 1 - start.weights.x := by
    rw [hz] at hsum
    linarith
  -- the world position of the start lies on the shared edge
  have hpt : m.to_world_point start =
      (1 - start.weights.x) • m.vtx start.indices.y +
        start.weights.x • m.vtx start.indices.x := by
    simp only [WalkMesh.to_world_point]
    rw [hz, hy]
    ext <;> simp <;> ring
  have hd : bary_denom (m.vtx start.indices.y) (m.vtx start.indices.x)
      (m.vtx dv) ≠ 0 := bary_denom_ne_zero_of_cross hnew
  have hbw : barycentric_weights (m.vtx start.indices.y)
      (m.vtx start.indices.x) (m.vtx dv) (m.to_world_point start) =
      ⟨1 - start.weights.x, start.weights.x, 0⟩ := by
    rw [hpt]
    exact barycentric_weights_on_edge _ _ _ _ hd
  have hounit : glm.dot
      (glm.normalize (glm.cross
        (m.vtx start.indices.y - m.vtx start.indices.x)
        (m.vtx start.indices.z - m.vtx start.indices.x)))
      (glm.normalize (glm.cross
        (m.vtx start.indices.y - m.vtx start.indices.x)
        (m.vtx start.indices.z - m.vtx start.indices.x))) = 1 :=
    dot_normalize_self hold
  have hdunit : glm.dot
      (glm.normalize (glm.cross
        (m.vtx start.indices.x - m.vtx start.indices.y)
        (m.vtx dv - m.vtx start.indices.y)))
      (glm.normalize (glm.cross
        (m.vtx start.indices.x - m.vtx start.indices.y)
        (m.vtx dv - m.vtx start.indices.y))) = 1 :=
    dot_normalize_self hnew
  obtain ⟨hr1, hr2⟩ := glm_rotation_rotates _ _ hounit hdunit
  refine ⟨⟨⟨start.indices.y, start.indices.x, dv⟩,
    barycentric_weights (m.vtx start.indices.y) (m.vtx start.indices.x)
      (m.vtx dv) (m.to_world_point start)⟩,
    glm.rotation _ _, ?_, rfl, ?_, hr2, hr1⟩
  · simp only [WalkMesh.cross_edge]
    rw [if_pos hz, hlook]
  · rw [hbw]
    simp only [WalkMesh.to_world_point]
    rw [hz, hy]
    ext <;> simp <;> ring

/-- A concrete two-triangle (flat square) walk mesh over `ℝ`, used by the C3
witness.  Triangle `(0,1,2)` and its neighbour `(2,1,3)` share the directed
edge `1 → 2` / `2 → 1`. -/
def quadMeshR : WalkMesh ℝ :=
  ⟨[⟨0, 0, 0⟩, ⟨1, 0, 0⟩, ⟨0, 1, 0⟩, ⟨1, 1, 0⟩],
   [⟨0, 0, 1⟩, ⟨0, 0, 1⟩, ⟨0, 0, 1⟩, ⟨0, 0, 1⟩],
   [⟨0, 1, 2⟩, ⟨2, 1, 3⟩]⟩

/-- C3 witness: crossing the interior edge of the flat square mesh from the
WalkPoint `((1,2,0), (1/2,1/2,0))` on the shared edge. -/
theorem C3_witness :
    ∃ e rot, quadMeshR.cross_edge ⟨⟨1, 2, 0⟩, ⟨1/2, 1/2, 0⟩⟩ =
        some (true, e, rot) ∧
      e.indices = ⟨2, 1, 3⟩ ∧
      quadMeshR.to_world_point e =
        quadMeshR.to_world_point ⟨⟨1, 2, 0⟩, ⟨1/2, 1/2, 0⟩⟩ ∧
      Quat.normSq rot = 1 ∧
      Quat.rotate rot
          (glm.normalize (glm.cross (quadMeshR.vtx 2 - quadMeshR.vtx 1)
            (quadMeshR.vtx 0 - quadMeshR.vtx 1))) =
        glm.normalize (glm.cross (quadMeshR.vtx 1 - quadMeshR.vtx 2)
          (quadMeshR.vtx 3 - quadMeshR.vtx 2)) :=
  C3_cross_edge_interior quadMeshR ⟨⟨1, 2, 0⟩, ⟨1/2, 1/2, 0⟩⟩ 3 rfl
    (by norm_num) (by decide)
    (by simp [quadMeshR, WalkMesh.vtx, glm.cross, Vec3.mk.injEq])
    (by simp [quadMeshR, WalkMesh.vtx, glm.cross, Vec3.mk.injEq])

/-! ### C8: validity of every returned WalkPoint -/

theorem cross_self_zero (u : Vec3 K) : glm.cross u u = 0 := by
  ext <;> simp [glm.cross] <;> ring

theorem cross_zero_left (v : Vec3 K) : glm.cross 0 v = 0 := by
  ext <;> simp [glm.cross]

theorem cross_zero_right (v : Vec3 K) : glm.cross v 0 = 0 := by
  ext <;> simp [glm.cross]

/-- The cross product defining a triangle's geometric normal is invariant
under cyclic rotation of the vertex triple. -/
theorem cross_cyclic (a b c : Vec3 K) :
    glm.cross (c - b) (a - b) = glm.cross (b - a) (c - a) := by
  ext <;> simp [glm.cross] <;> ring

/-- Cyclic rotation of an index triple. -/
def UVec3.rot (t : UVec3) : UVec3 := ⟨t.y, t.z, t.x⟩

theorem on_mesh_triangle_rot (m : WalkMesh K) (idx : UVec3)
    (h : m.on_mesh_triangle idx) : m.on_mesh_triangle idx.rot := by
  obtain ⟨t, ht, hperm⟩ := h
  refine ⟨t, ht, ?_⟩
  simp only [UVec3.cyclicPerms, List.mem_cons, List.not_mem_nil, or_false]
    at hperm ⊢
  rcases hperm with h | h | h <;> rw [h] <;> simp [UVec3.rot]

/-- If all triangles of the mesh are non-degenerate then every directed edge
of every triangle has distinct endpoint positions. -/
theorem edge_vec_ne_zero (m : WalkMesh K)
    (hnd : ∀ t ∈ m.triangles,
      glm.cross (m.vtx t.y - m.vtx t.x) (m.vtx t.z - m.vtx t.x) ≠ 0)
    (t : UVec3) (ht : t ∈ m.triangles) :
    m.vtx t.y - m.vtx t.x ≠ 0 ∧ m.vtx t.z - m.vtx t.y ≠ 0 ∧
      m.vtx t.x - m.vtx t.z ≠ 0 := by
  have hc := hnd t ht
  refine ⟨?_, ?_, ?_⟩
  · intro h
    exact hc (by rw [h, cross_zero_left])
  · intro h
    have hzy : m.vtx t.z - m.vtx t.x = m.vtx t.y - m.vtx t.x := by
      have : m.vtx t.z = m.vtx t.y := by
        have := sub_eq_zero.mp (by exact_mod_cast congrArg Vec3.x h)
        have h2 := congrArg Vec3.y h
        have h3 := congrArg Vec3.z h
        ext <;> simp at * <;> linarith
      rw [this]
    exact hc (by rw [hzy, cross_self_zero])
  · intro h
    have : m.vtx t.x = m.vtx t.z := by
      have h1 := congrArg Vec3.x h
      have h2 := congrArg Vec3.y h
      have h3 := congrArg Vec3.z h
      ext <;> simp at * <;> linarith
    refine hc ?_
    rw [← this]
    have hz : m.vtx t.x - m.vtx t.x = 0 := by ext <;> simp
    rw [hz, cross_zero_right]

/-- Weight validity of every candidate produced by the nearest-point scan
over a mesh with non-degenerate triangles. -/
theorem nearest_candidates_valid (m : WalkMesh K) (wp : Vec3 K)
    (hnd : ∀ t ∈ m.triangles,
      glm.cross (m.vtx t.y - m.vtx t.x) (m.vtx t.z - m.vtx t.x) ≠ 0)
    (c : K × WalkPoint K) (hc : c ∈ m.nearest_candidates wp) :
    c.2.valid_weights := by
  unfold WalkMesh.nearest_candidates at hc
  rcases List.mem_flatten.mp hc with ⟨l, hl, hcl⟩
  rcases List.mem_map.mp hl with ⟨t, ht, rfl⟩
  obtain ⟨he1, he2, he3⟩ := edge_vec_ne_zero m hnd t ht
  unfold WalkMesh.triangle_candidates at hcl
  dsimp only at hcl
  split at hcl
  · rename_i hin
    simp only [List.mem_singleton] at hcl
    subst hcl
    exact ⟨hin.1, hin.2.1, hin.2.2, bary_sum _ _ _ _⟩
  · have hck : ∀ ai bi ci : ℕ, m.vtx bi - m.vtx ai ≠ 0 →
        (m.check_edge wp ai bi ci).2.valid_weights := by
      intro ai bi ci hab
      have hmx : 0 < glm.dot (m.vtx bi - m.vtx ai) (m.vtx bi - m.vtx ai) :=
        length2_pos_of_ne_zero hab
      unfold WalkMesh.check_edge
      dsimp only
      split
      · exact ⟨by norm_num, by norm_num, by norm_num, by norm_num⟩
      · split
        · exact ⟨by norm_num, by norm_num, by norm_num, by norm_num⟩
        · rename_i h1 h2
          push_neg at h1 h2
          constructor
          · simp only
            rw [sub_nonneg, div_le_one hmx]
            exact h2
          · refine ⟨div_nonneg h1 hmx.le, by norm_num, by ring⟩
    simp only [List.mem_cons, List.not_mem_nil, or_false] at hcl
    rcases hcl with rfl | rfl | rfl
    · exact hck t.x t.y t.z he1
    · exact hck t.y t.z t.x he2
    · exact hck t.z t.x t.y he3

/-- The weights of the destination projection sum to 1. -/
theorem dest_bary_sum (m : WalkMesh K) (p : WalkPoint K) (step : Vec3 K) :
    (m.dest_bary p step).x + (m.dest_bary p step).y +
      (m.dest_bary p step).z = 1 := by
  unfold WalkMesh.dest_bary
  exact bary_sum _ _ _ _

/-- The crossing time of a qualifying component with a nonnegative start
weight lies in `[0, 1]`. -/
theorem crossing_time_bounds {d s : K} (hq : qualifies d s) (hs : 0 ≤ s) :
    0 ≤ crossing_time d s ∧ crossing_time d s ≤ 1 := by
  have hd : d ≤ 0 := not_lt.mp hq.1
  have hden : d - s < 0 :=
    lt_of_le_of_ne (by linarith) hq.2
  have hrw : crossing_time d s = s / (s - d) := by
    rw [crossing_time, ← neg_sub s d, div_neg, neg_div, neg_neg]
  constructor
  · rw [hrw]
    exact div_nonneg hs (by linarith)
  · rw [hrw, div_le_one (by linarith)]
    linarith

/-- An interpolated weight at the crossing time of its own component is
exactly zero. -/
theorem weight_at_own_crossing {d s : K} (hq : qualifies d s) :
    s + crossing_time d s * (d - s) = 0 := by
  rw [crossing_time, neg_div, neg_mul, div_mul_cancel₀ _ hq.2]
  ring

/-- A weight component stays nonnegative at any time below its own crossing
time (or at any time in `[0,1]` when the component does not qualify). -/
theorem weight_nonneg_at {d s T : K} (hs : 0 ≤ s) (hT0 : 0 ≤ T) (hT1 : T ≤ 1)
    (h : ¬ qualifies d s ∨ T ≤ crossing_time d s) :
    0 ≤ s + T * (d - s) := by
  rcases h with h | h
  · unfold qualifies at h
    push_neg at h
    rcases lt_or_le 0 d with hd | hd
    · nlinarith
    · have := h hd
      have hds : d = s := by linarith [sub_eq_zero.mp this]
      rw [hds]
      nlinarith
  · by_cases hq : qualifies d s
    · have hd : d ≤ 0 := not_lt.mp hq.1
      have hden : d - s < 0 := lt_of_le_of_ne (by linarith) hq.2
      have hzero := weight_at_own_crossing hq
      nlinarith [mul_le_mul_of_nonpos_right h hden.le]
    · unfold qualifies at hq
      push_neg at hq
      rcases lt_or_le 0 d with hd | hd
      · nlinarith
      · have := hq hd
        have hds : d = s := by linarith [sub_eq_zero.mp this]
        rw [hds]
        nlinarith

theorem not_qual_dest_nonneg {d s : K} (hs : 0 ≤ s) (h : ¬ qualifies d s) :
    0 ≤ d := by
  unfold qualifies at h
  push_neg at h
  rcases lt_or_le 0 d with hd | hd
  · exact hd.le
  · have := h hd
    linarith [sub_eq_zero.mp this]

/-- Validity of the WalkPoint returned by `walk_in_triangle`: weights
nonnegative and summing to 1, and the index triple still a cyclic
permutation of a mesh triangle. -/
theorem walk_in_triangle_valid (m : WalkMesh K) (p : WalkPoint K)
    (step : Vec3 K) (e : WalkPoint K) (t : K) (hval : p.valid_weights)
    (hw : m.walk_in_triangle p step = some (e, t)) :
    e.valid_weights ∧
      (m.on_mesh_triangle p.indices → m.on_mesh_triangle e.indices) := by
  obtain ⟨hx, hy, hz, hsum⟩ := hval
  have hdsum := dest_bary_sum m p step
  set db := m.dest_bary p step with hdb
  rcases walk_scan_inv db p.weights with ⟨hne, hall⟩ | ⟨q, hqmem, hqq, hacc, hmin⟩
  · -- no component qualified: the full step is consumed
    simp only [WalkMesh.walk_in_triangle, ← hdb, hne] at hw
    rw [if_neg (by norm_num : ¬(1 : K) ≤ 0)] at hw
    have h := Option.some.inj hw
    obtain ⟨he, _⟩ := Prod.mk.injEq _ _ _ _ ▸ h
    subst he
    have hwd : p.weights + (1 : K) • (db - p.weights) = db := by
      ext <;> simp
    constructor
    · refine ⟨?_, ?_, ?_, ?_⟩ <;> simp only [WalkPoint.valid_weights, hwd]
      · exact not_qual_dest_nonneg hx
          (by simpa using hall (0, db.x, p.weights.x) (by simp))
      · exact not_qual_dest_nonneg hy
          (by simpa using hall (1, db.y, p.weights.y) (by simp))
      · exact not_qual_dest_nonneg hz
          (by simpa using hall (2, db.z, p.weights.z) (by simp))
      · exact hdsum
    · exact id
  · -- a component qualified: the step is clipped at its crossing time
    have hmem3 : q = (0, db.x, p.weights.x) ∨ q = (1, db.y, p.weights.y) ∨
        q = (2, db.z, p.weights.z) := by
      simpa using hqmem
    have hnn : ∀ j : ℕ × K × K,
        j ∈ [(0, db.x, p.weights.x), (1, db.y, p.weights.y),
             (2, db.z, p.weights.z)] →
        0 ≤ j.2.2 →
        0 ≤ crossing_time q.2.1 q.2.2 → crossing_time q.2.1 q.2.2 ≤ 1 →
        0 ≤ j.2.2 + crossing_time q.2.1 q.2.2 * (j.2.1 - j.2.2) := by
      intro j hj hjs h0 h1
      refine weight_nonneg_at hjs h0 h1 ?_
      by_cases hqj : qualifies j.2.1 j.2.2
      · exact Or.inr (hmin j hj hqj)
      · exact Or.inl hqj
    rcases hmem3 with hqe | hqe | hqe <;> subst hqe
    · -- crossed component 0
      obtain ⟨hT0, hT1⟩ := crossing_time_bounds hqq hx
      simp only [WalkMesh.walk_in_triangle, ← hdb, hacc] at hw
      rw [min_eq_right hT1] at hw
      by_cases hTz : crossing_time db.x p.weights.x ≤ 0
      · rw [if_pos hTz] at hw
        exact absurd hw (by simp)
      · rw [if_neg hTz] at hw
        have h := Option.some.inj hw
        obtain ⟨he, _⟩ := Prod.mk.injEq _ _ _ _ ▸ h
        subst he
        have hw0 : p.weights.x +
            crossing_time db.x p.weights.x * (db.x - p.weights.x) = 0 :=
          weight_at_own_crossing hqq
        refine ⟨⟨?_, ?_, le_refl 0, ?_⟩, ?_⟩
        · simpa using hnn (1, db.y, p.weights.y) (by simp) hy hT0 hT1
        · simpa using hnn (2, db.z, p.weights.z) (by simp) hz hT0 hT1
        · simp only
          have hsw : (p.weights.x + crossing_time db.x p.weights.x *
                (db.x - p.weights.x)) +
              (p.weights.y + crossing_time db.x p.weights.x *
                (db.y - p.weights.y)) +
              (p.weights.z + crossing_time db.x p.weights.x *
                (db.z - p.weights.z)) = 1 := by
            linear_combination hsum + crossing_time db.x p.weights.x * hdsum -
              crossing_time db.x p.weights.x * hsum
          simp only [Vec3.add_def, Vec3.smul_def, Vec3.sub_def]
          linarith [hsw, hw0]
        · intro hp
          exact on_mesh_triangle_rot m p.indices hp
    · -- crossed component 1
      obtain ⟨hT0, hT1⟩ := crossing_time_bounds hqq hy
      simp only [WalkMesh.walk_in_triangle, ← hdb, hacc] at hw
      rw [min_eq_right hT1] at hw
      by_cases hTz : crossing_time db.y p.weights.y ≤ 0
      · rw [if_pos hTz] at hw
        exact absurd hw (by simp)
      · rw [if_neg hTz] at hw
        have h := Option.some.inj hw
        obtain ⟨he, _⟩ := Prod.mk.injEq _ _ _ _ ▸ h
        subst he
        have hw0 : p.weights.y +
            crossing_time db.y p.weights.y * (db.y - p.weights.y) = 0 :=
          weight_at_own_crossing hqq
        refine ⟨⟨?_, ?_, le_refl 0, ?_⟩, ?_⟩
        · simpa using hnn (2, db.z, p.weights.z) (by simp) hz hT0 hT1
        · simpa using hnn (0, db.x, p.weights.x) (by simp) hx hT0 hT1
        · simp only
          have hsw : (p.weights.x + crossing_time db.y p.weights.y *
                (db.x - p.weights.x)) +
              (p.weights.y + crossing_time db.y p.weights.y *
                (db.y - p.weights.y)) +
              (p.weights.z + crossing_time db.y p.weights.y *
                (db.z - p.weights.z)) = 1 := by
            linear_combination hsum + crossing_time db.y p.weights.y * hdsum -
              crossing_time db.y p.weights.y * hsum
          simp only [Vec3.add_def, Vec3.smul_def, Vec3.sub_def]
          linarith [hsw, hw0]
        · intro hp
          exact on_mesh_triangle_rot m _ (on_mesh_triangle_rot m p.indices hp)
    · -- crossed component 2
      obtain ⟨hT0, hT1⟩ := crossing_time_bounds hqq hz
      simp only [WalkMesh.walk_in_triangle, ← hdb, hacc] at hw
      rw [min_eq_right hT1] at hw
      by_cases hTz : crossing_time db.z p.weights.z ≤ 0
      · rw [if_pos hTz] at hw
        exact absurd hw (by simp)
      · rw [if_neg hTz] at hw
        have h := Option.some.inj hw
        obtain ⟨he, _⟩ := Prod.mk.injEq _ _ _ _ ▸ h
        subst he
        have hw0 : p.weights.z +
            crossing_time db.z p.weights.z * (db.z - p.weights.z) = 0 :=
          weight_at_own_crossing hqq
        refine ⟨⟨?_, ?_, le_refl 0, ?_⟩, ?_⟩
        · simpa using hnn (0, db.x, p.weights.x) (by simp) hx hT0 hT1
        · simpa using hnn (1, db.y, p.weights.y) (by simp) hy hT0 hT1
        · simp only
          have hsw : (p.weights.x + crossing_time db.z p.weights.z *
                (db.x - p.weights.x)) +
              (p.weights.y + crossing_time db.z p.weights.z *
                (db.y - p.weights.y)) +
              (p.weights.z + crossing_time db.z p.weights.z *
                (db.z - p.weights.z)) = 1 := by
            linear_combination hsum + crossing_time db.z p.weights.z * hdsum -
              crossing_time db.z p.weights.z * hsum
          simp only [Vec3.add_def, Vec3.smul_def, Vec3.sub_def]
          linarith [hsw, hw0]
        · exact fun hp => hp

theorem foldl_update_closest_mem_aux (l : List (K × WalkPoint K))
    (a x : K × WalkPoint K) (h : l.foldl update_closest (some a) = some x) :
    x = a ∨ x ∈ l := by
  induction l generalizing a with
  | nil => exact Or.inl (Option.some.inj h).symm
  | cons y ys ih =>
    have hstep : update_closest (some a) y =
        if y.1 < a.1 then some y else some a := rfl
    rw [List.foldl_cons, hstep] at h
    by_cases hlt : y.1 < a.1
    · rw [if_pos hlt] at h
      rcases ih y h with h2 | h2
      · refine Or.inr ?_
        rw [h2]
        exact List.mem_cons_self _ _
      · exact Or.inr (List.mem_cons.mpr (Or.inr h2))
    · rw [if_neg hlt] at h
      rcases ih a h with h2 | h2
      · exact Or.inl h2
      · exact Or.inr (List.mem_cons.mpr (Or.inr h2))

/-- The `closest` record held by the nearest-point fold is one of the scanned
candidates. -/
theorem foldl_update_closest_mem (l : List (K × WalkPoint K))
    (x : K × WalkPoint K) (h : l.foldl update_closest none = some x) :
    x ∈ l := by
  rcases l with _ | ⟨c0, cs⟩
  · exact absurd h (by simp)
  · have hstep : List.foldl update_closest none (c0 :: cs) =
        List.foldl update_closest (some c0) cs := rfl
    rw [hstep] at h
    rcases foldl_update_closest_mem_aux cs c0 x h with h2 | h2
    · rw [h2]
      exact List.mem_cons_self _ _
    · exact List.mem_cons.mpr (Or.inr h2)

/-- A successful adjacency lookup comes from a triangle of the mesh: the
found triple `(a, b, d)` is a cyclic permutation of it. -/
theorem next_vertex_mem (m : WalkMesh K) (a b d : ℕ)
    (h : m.next_vertex a b = some d) :
    ∃ t ∈ m.triangles, (⟨a, b, d⟩ : UVec3) ∈ t.cyclicPerms := by
  unfold WalkMesh.next_vertex at h
  have hmem : d ∈ m.triangles.filterMap fun t =>
      if t.x = a ∧ t.y = b then some t.z
      else if t.y = a ∧ t.z = b then some t.x
      else if t.z = a ∧ t.x = b then some t.y
      else none :=
    List.mem_of_mem_head? (Option.mem_def.mpr h)
  rcases List.mem_filterMap.mp hmem with ⟨t, ht, hf⟩
  refine ⟨t, ht, ?_⟩
  split_ifs at hf with h1 h2 h3
  · obtain ⟨hx, hy⟩ := h1
    have hd := Option.some.inj hf
    simp only [UVec3.cyclicPerms, List.mem_cons]
    left
    ext <;> simp [hx, hy, hd]
  · obtain ⟨hx, hy⟩ := h2
    have hd := Option.some.inj hf
    simp only [UVec3.cyclicPerms, List.mem_cons]
    right; left
    ext <;> simp [UVec3.rot, hx, hy, hd]
  · obtain ⟨hx, hy⟩ := h3
    have hd := Option.some.inj hf
    simp only [UVec3.cyclicPerms, List.mem_cons]
    right; right; left
    ext <;> simp [hx, hy, hd]

/-- Validity of the WalkPoint returned by `cross_edge`, for a mesh with
non-degenerate triangles. -/
theorem cross_edge_valid (m : WalkMesh ℝ) (start : WalkPoint ℝ) (r : Bool)
    (e : WalkPoint ℝ) (rot : Quat) (hval : start.valid_weights)
    (hnd : ∀ t ∈ m.triangles,
      glm.cross (m.vtx t.y - m.vtx t.x) (m.vtx t.z - m.vtx t.x) ≠ 0)
    (hc : m.cross_edge start = some (r, e, rot)) :
    e.valid_weights ∧
      (m.on_mesh_triangle start.indices → m.on_mesh_triangle e.indices) := by
  obtain ⟨hx, hy, hz0, hsum⟩ := hval
  simp only [WalkMesh.cross_edge] at hc
  by_cases hz : start.weights.z = 0
  · rw [if_pos hz] at hc
    rcases hlook : m.next_vertex start.indices.y start.indices.x with _ | d
    · rw [hlook] at hc
      have h := Option.some.inj hc
      have he : start = e := congrArg (fun p => p.2.1) h
      subst he
      exact ⟨⟨hx, hy, hz0, hsum⟩, id⟩
    · rw [hlook] at hc
      have h := Option.some.inj hc
      have he : e = ⟨⟨start.indices.y, start.indices.x, d⟩,
          barycentric_weights (m.vtx start.indices.y)
            (m.vtx start.indices.x) (m.vtx d)
            (m.to_world_point start)⟩ :=
        (congrArg (fun p => p.2.1) h).symm
      obtain ⟨t, ht, hperm⟩ := next_vertex_mem m start.indices.y
        start.indices.x d hlook
      -- the twin triangle is non-degenerate (cross products of cyclic
      -- rotations of a triple coincide)
      have hndtwin : glm.cross
          (m.vtx start.indices.x - m.vtx start.indices.y)
          (m.vtx d - m.vtx start.indices.y) ≠ 0 := by
        have hct := hnd t ht
        simp only [UVec3.cyclicPerms, List.mem_cons, List.not_mem_nil,
          or_false] at hperm
        rcases hperm with hnew | hnew | hnew
        · have h1 : start.indices.y = t.x := congrArg UVec3.x hnew
          have h2 : start.indices.x = t.y := congrArg UVec3.y hnew
          have h3 : d = t.z := congrArg UVec3.z hnew
          rw [h1, h2, h3]
          exact hct
        · have h1 : start.indices.y = t.y := congrArg UVec3.x hnew
          have h2 : start.indices.x = t.z := congrArg UVec3.y hnew
          have h3 : d = t.x := congrArg UVec3.z hnew
          rw [h1, h2, h3]
          rw [cross_cyclic]
          exact hct
        · have h1 : start.indices.y = t.z := congrArg UVec3.x hnew
          have h2 : start.indices.x = t.x := congrArg UVec3.y hnew
          have h3 : d = t.y := congrArg UVec3.z hnew
          rw [h1, h2, h3]
          rw [cross_cyclic, cross_cyclic]
          exact hct
      have hd := bary_denom_ne_zero_of_cross hndtwin
      have hyx : start.weights.y = 1 - start.weights.x := by
        rw [hz] at hsum
        linarith
      have hpt : m.to_world_point start =
          (1 - start.weights.x) • m.vtx start.indices.y +
            start.weights.x • m.vtx start.indices.x := by
        simp only [WalkMesh.to_world_point]
        rw [hz, hyx]
        ext <;> simp <;> ring
      have hbw : barycentric_weights (m.vtx start.indices.y)
          (m.vtx start.indices.x) (m.vtx d) (m.to_world_point start) =
          ⟨1 - start.weights.x, start.weights.x, 0⟩ := by
        rw [hpt]
        exact barycentric_weights_on_edge _ _ _ _ hd
      subst he
      constructor
      · rw [WalkPoint.valid_weights, hbw]
        refine ⟨by simpa [hyx] using hy, hx, le_refl 0, by ring⟩
      · intro _
        exact ⟨t, ht, hperm⟩
  · rw [if_neg hz] at hc
    exact absurd hc (by simp)

/-- C8: every WalkPoint returned by `nearest_walk_point`, `walk_in_triangle`
and `cross_edge` under their documented preconditions (valid input point,
non-degenerate mesh triangles) satisfies the validity invariant: weights
nonnegative and summing to exactly 1, and the index triple a cyclic
permutation of a triangle of the mesh.  The first two parts hold over any
linear ordered field; the `cross_edge` part is stated over `ℝ` where the
function is defined. -/
theorem C8_returned_walkpoints_valid {K : Type} [LinearOrderedField K]
    (m : WalkMesh K) (mr : WalkMesh ℝ) :
    (∀ world_point wp,
      (∀ t ∈ m.triangles,
        glm.cross (m.vtx t.y - m.vtx t.x) (m.vtx t.z - m.vtx t.x) ≠ 0) →
      m.nearest_walk_point world_point = some wp →
      wp.valid_weights ∧ m.on_mesh_triangle wp.indices) ∧
    (∀ p step e t, WalkPoint.valid_weights p →
      m.walk_in_triangle p step = some (e, t) →
      e.valid_weights ∧
        (m.on_mesh_triangle p.indices → m.on_mesh_triangle e.indices)) ∧
    (∀ (start : WalkPoint ℝ) r e rot, start.valid_weights →
      (∀ t ∈ mr.triangles,
        glm.cross (mr.vtx t.y - mr.vtx t.x) (mr.vtx t.z - mr.vtx t.x) ≠ 0) →
      mr.cross_edge start = some (r, e, rot) →
      e.valid_weights ∧
        (mr.on_mesh_triangle start.indices → mr.on_mesh_triangle e.indices)) := by
  refine ⟨?_, ?_, ?_⟩
  · intro world_point wp hnd hn
    unfold WalkMesh.nearest_walk_point at hn
    rcases hfold : (m.nearest_candidates world_point).foldl update_closest
        none with _ | cw
    · rw [hfold] at hn
      exact absurd hn (by simp)
    · rw [hfold] at hn
      obtain ⟨cd, cwp⟩ := cw
      have hmem : (cd, cwp) ∈ m.nearest_candidates world_point :=
        foldl_update_closest_mem _ _ hfold
      dsimp only at hn
      by_cases hb : cwp.indices.x < m.vertices.length ∧
          cwp.indices.y < m.vertices.length ∧
          cwp.indices.z < m.vertices.length
      · rw [if_pos hb] at hn
        have hwp : cwp = wp := Option.some.inj hn
        subst hwp
        refine ⟨nearest_candidates_valid m world_point hnd (cd, cwp) hmem, ?_⟩
        obtain ⟨t, ht, hperm⟩ :=
          nearest_candidates_indices m world_point (cd, cwp) hmem
        exact ⟨t, ht, hperm⟩
      · rw [if_neg hb] at hn
        exact absurd hn (by simp)
  · intro p step e t hval hw
    exact walk_in_triangle_valid m p step e t hval hw
  · intro start r e rot hval hnd hc
    exact cross_edge_valid mr start r e rot hval hnd hc

unseal Rat.inv Rat.mul Rat.add Rat.sub in
/-- C8 witness: the three parts instantiated on the concrete meshes. -/
theorem C8_witness :
    (∀ world_point wp,
      (∀ t ∈ triMesh.triangles,
        glm.cross (triMesh.vtx t.y - triMesh.vtx t.x)
          (triMesh.vtx t.z - triMesh.vtx t.x) ≠ 0) →
      triMesh.nearest_walk_point world_point = some wp →
      wp.valid_weights ∧ triMesh.on_mesh_triangle wp.indices) ∧
    (∀ p step e t, WalkPoint.valid_weights p →
      triMesh.walk_in_triangle p step = some (e, t) →
      e.valid_weights ∧
        (triMesh.on_mesh_triangle p.indices →
          triMesh.on_mesh_triangle e.indices)) ∧
    (∀ (start : WalkPoint ℝ) r e rot, start.valid_weights →
      (∀ t ∈ triMeshR.triangles,
        glm.cross (triMeshR.vtx t.y - triMeshR.vtx t.x)
          (triMeshR.vtx t.z - triMeshR.vtx t.x) ≠ 0) →
      triMeshR.cross_edge start = some (r, e, rot) →
      e.valid_weights ∧
        (triMeshR.on_mesh_triangle start.indices →
          triMeshR.on_mesh_triangle e.indices)) :=
  C8_returned_walkpoints_valid triMesh triMeshR

/-! ### C9: the WalkMeshes loader -/

/-- `IndexEntry` of the `WalkMeshes` constructor (lines 260-264). -/
structure IndexEntry where
  name_begin : ℕ
  name_end : ℕ
  vertex_begin : ℕ
  vertex_end : ℕ
  triangle_begin : ℕ
  triangle_end : ℕ
deriving DecidableEq

/-- Two index entries overlap when their vertex ranges or their triangle
ranges (half-open) intersect. -/
def IndexEntry.overlaps (e1 e2 : IndexEntry) : Prop :=
  (e1.vertex_begin < e2.vertex_end ∧ e2.vertex_begin < e1.vertex_end) ∨
  (e1.triangle_begin < e2.triangle_end ∧ e2.triangle_begin < e1.triangle_end)

instance (e1 e2 : IndexEntry) : Decidable (e1.overlaps e2) :=
  inferInstanceAs (Decidable (_ ∨ _))

/-- The `WalkMesh` constructor's debug checks (lines 13-45): every directed
edge is owned by at most one triangle (`assert(ret.second)` on map
insertion), and every triangle's geometric normal has strictly positive dot
product with each of its vertex normals.  The source computes the dot with
`glm::normalize(cross(...))`: for a zero cross product the normalization is
NaN in floats and the positivity assert always fails, and for a nonzero one
the positive rescaling does not change the sign of the dot product, so the
check is modelled as `cross ≠ 0 ∧ 0 < dot cross normal`.  Assertion failure
(process abort) is modelled as `none`. -/
def WalkMesh.construct (vertices normals : List (Vec3 K))
    (triangles : List UVec3) : Option (WalkMesh K) :=
  let vtx := fun i => vertices.getD i ⟨0, 0, 0⟩
  let nrm := fun i => normals.getD i ⟨0, 0, 0⟩
  let edges := (triangles.map fun t =>
    [(t.x, t.y), (t.y, t.z), (t.z, t.x)]).flatten
  if edges.Nodup ∧ ∀ t ∈ triangles,
      glm.cross (vtx t.y - vtx t.x) (vtx t.z - vtx t.x) ≠ 0 ∧
      0 < glm.dot (glm.cross (vtx t.y - vtx t.x) (vtx t.z - vtx t.x)) (nrm t.x) ∧
      0 < glm.dot (glm.cross (vtx t.y - vtx t.x) (vtx t.z - vtx t.x)) (nrm t.y) ∧
      0 < glm.dot (glm.cross (vtx t.y - vtx t.x) (vtx t.z - vtx t.x)) (nrm t.z)
  then some ⟨vertices, normals, triangles⟩
  else none

/-- The name a loader entry selects from the string chunk. -/
def IndexEntry.name (names : List Char) (e : IndexEntry) : String :=
  String.mk ((names.drop e.name_begin).take (e.name_end - e.name_begin))

/-- The per-entry loop of the `WalkMeshes` constructor (lines 279-316):
range checks, triangle remapping, sub-mesh construction and duplicate-name
detection, with `throw std::runtime_error(...)` modelled as `Except.error`
(messages keep the source's prefixes; the file name interpolation is
dropped).  The source throws at the first invalid triangle inside the remap
loop; the model checks the whole range first, which accepts and rejects
exactly the same inputs. -/
def WalkMeshes.buildEntries (vertices normals : List (Vec3 K))
    (triangles : List UVec3) (names : List Char) :
    List IndexEntry → List (String × WalkMesh K) →
      Except String (List (String × WalkMesh K))
  | [], meshes => Except.ok meshes
  | e :: rest, meshes =>
    if ¬(e.name_begin ≤ e.name_end ∧ e.name_end ≤ names.length) then
      Except.error "Invalid name indices in index"
    else if ¬(e.vertex_begin ≤ e.vertex_end ∧
        e.vertex_end ≤ vertices.length) then
      Except.error "Invalid vertex indices in index"
    else if ¬(e.triangle_begin ≤ e.triangle_end ∧
        e.triangle_end ≤ triangles.length) then
      Except.error "Invalid triangle indices in index"
    else
      let tris := (triangles.drop e.triangle_begin).take
        (e.triangle_end - e.triangle_begin)
      if ¬(∀ t ∈ tris, (e.vertex_begin ≤ t.x ∧ t.x < e.vertex_end) ∧
          (e.vertex_begin ≤ t.y ∧ t.y < e.vertex_end) ∧
          (e.vertex_begin ≤ t.z ∧ t.z < e.vertex_end)) then
        Except.error "Invalid triangle"
      else
        let wm_vertices := (vertices.drop e.vertex_begin).take
          (e.vertex_end - e.vertex_begin)
        let wm_normals := (normals.drop e.vertex_begin).take
          (e.vertex_end - e.vertex_begin)
        let wm_triangles := tris.map fun t =>
          (⟨t.x - e.vertex_begin, t.y - e.vertex_begin,
            t.z - e.vertex_begin⟩ : UVec3)
        match WalkMesh.construct wm_vertices wm_normals wm_triangles with
        | none => Except.error "WalkMesh constructor assertion failed"
        | some wm =>
          let name := e.name names
          if meshes.any fun p => p.1 == name then
            Except.error "WalkMesh with duplicated name"
          else
            WalkMeshes.buildEntries vertices normals triangles names rest
              (meshes ++ [(name, wm)])

/-- The validation/construction stage of the `WalkMeshes` constructor (lines
245-317), taking the already-parsed chunks; the binary chunk reading of
lines 246-271 is file I/O outside the model. -/
def WalkMeshes.build (vertices normals : List (Vec3 K))
    (triangles : List UVec3) (names : List Char)
    (index : List IndexEntry) :
    Except String (List (String × WalkMesh K)) :=
  if vertices.length ≠ normals.length then
    Except.error "Mis-matched position and normal sizes"
  else
    WalkMeshes.buildEntries vertices normals triangles names index []

unseal Rat.inv Rat.mul Rat.add Rat.sub in
/-- C9 counterexample: the claim says a resource with overlapping index
entries fails fatally.  Here both entries cover the same vertex range
`[0, 3)` and the same triangle range `[0, 1)` — maximal overlap — have
distinct names, and the load succeeds with a fully-loaded two-mesh
collection: the loader has no overlap check. -/
theorem C9_counterexample :
    IndexEntry.overlaps ⟨0, 1, 0, 3, 0, 1⟩ ⟨1, 2, 0, 3, 0, 1⟩ ∧
    ∃ ms, WalkMeshes.build
        ([⟨0, 0, 0⟩, ⟨1, 0, 0⟩, ⟨0, 1, 0⟩] : List (Vec3 ℚ))
        [⟨0, 0, 1⟩, ⟨0, 0, 1⟩, ⟨0, 0, 1⟩]
        [⟨0, 1, 2⟩]
        [(Char.ofNat 97), (Char.ofNat 98)]
        [⟨0, 1, 0, 3, 0, 1⟩, ⟨1, 2, 0, 3, 0, 1⟩] = Except.ok ms ∧
      ms.length = 2 := by
  refine ⟨by decide, ⟨_, rfl, ?_⟩⟩
  decide

/-- Entry-list induction for the loader: if every entry passes its own
checks, names are fresh and pairwise distinct, the fold succeeds and adds
one mesh per entry. -/
theorem buildEntries_ok (vertices normals : List (Vec3 K))
    (triangles : List UVec3) (names : List Char) :
    ∀ (index : List IndexEntry) (meshes : List (String × WalkMesh K)),
    (∀ e ∈ index,
      (e.name_begin ≤ e.name_end ∧ e.name_end ≤ names.length) ∧
      (e.vertex_begin ≤ e.vertex_end ∧ e.vertex_end ≤ vertices.length) ∧
      (e.triangle_begin ≤ e.triangle_end ∧
        e.triangle_end ≤ triangles.length) ∧
      (∀ t ∈ (triangles.drop e.triangle_begin).take
          (e.triangle_end - e.triangle_begin),
        (e.vertex_begin ≤ t.x ∧ t.x < e.vertex_end) ∧
        (e.vertex_begin ≤ t.y ∧ t.y < e.vertex_end) ∧
        (e.vertex_begin ≤ t.z ∧ t.z < e.vertex_end)) ∧
      WalkMesh.construct
        ((vertices.drop e.vertex_begin).take (e.vertex_end - e.vertex_begin))
        ((normals.drop e.vertex_begin).take (e.vertex_end - e.vertex_begin))
        (((triangles.drop e.triangle_begin).take
            (e.triangle_end - e.triangle_begin)).map fun t =>
          (⟨t.x - e.vertex_begin, t.y - e.vertex_begin,
            t.z - e.vertex_begin⟩ : UVec3)) ≠ none) →
    index.Pairwise (fun e1 e2 => e1.name names ≠ e2.name names) →
    (∀ e ∈ index, ∀ p ∈ meshes, p.1 ≠ e.name names) →
    ∃ ms, WalkMeshes.buildEntries vertices normals triangles names index
        meshes = Except.ok ms ∧ ms.length = meshes.length + index.length := by
  intro index
  induction index with
  | nil =>
    intro meshes _ _ _
    exact ⟨meshes, rfl, by simp⟩
  | cons e rest ih =>
    intro meshes hentry hpair hfresh
    obtain ⟨h1, h2, h3, h4, h5⟩ := hentry e (List.mem_cons_self _ _)
    obtain ⟨wm, hwm⟩ := Option.ne_none_iff_exists'.mp h5
    have hany : (meshes.any fun p => p.1 == e.name names) = false := by
      rw [List.any_eq_false]
      intro p hp
      simpa using hfresh e (List.mem_cons_self _ _) p hp
    rw [WalkMeshes.buildEntries]
    rw [if_neg (not_not_intro h1), if_neg (not_not_intro h2),
      if_neg (not_not_intro h3)]
    dsimp only
    rw [if_neg (not_not_intro h4), hwm]
    rw [hany]
    dsimp only [Bool.false_eq_true, if_false]
    have hpair' := (List.pairwise_cons.mp hpair).2
    have hheadname := (List.pairwise_cons.mp hpair).1
    obtain ⟨ms, hms, hlen⟩ := ih (meshes ++ [(e.name names, wm)])
      (fun e' he' => hentry e' (List.mem_cons.mpr (Or.inr he'))) hpair'
      (by
        intro e' he' p hp
        rcases List.mem_append.mp hp with hp | hp
        · exact hfresh e' (List.mem_cons.mpr (Or.inr he')) p hp
        · simp only [List.mem_singleton] at hp
          subst hp
          exact hheadname e' he')
    refine ⟨ms, hms, ?_⟩
    rw [hlen]
    simp
    omega

/-- C9 (amended): the loader performs no overlap check.  Any parsed input
whose vertex/normal counts match, whose entries each pass the
name/vertex/triangle range checks, whose sliced triangles reference only the
entry's own vertex range, whose per-entry sub-meshes pass the WalkMesh
constructor's consistency checks, and whose entry names are pairwise
distinct loads successfully into one mesh per entry — whether or not the
entries' vertex or triangle ranges overlap.  (Out-of-range or mis-ordered
entries, foreign-vertex triangles and duplicate names do abort the load;
overlap does not.) -/
theorem C9_amended_overlap_not_checked {K : Type} [LinearOrderedField K]
    (vertices normals : List (Vec3 K)) (triangles : List UVec3)
    (names : List Char) (index : List IndexEntry)
    (hvn : vertices.length = normals.length)
    (hentry : ∀ e ∈ index,
      (e.name_begin ≤ e.name_end ∧ e.name_end ≤ names.length) ∧
      (e.vertex_begin ≤ e.vertex_end ∧ e.vertex_end ≤ vertices.length) ∧
      (e.triangle_begin ≤ e.triangle_end ∧
        e.triangle_end ≤ triangles.length) ∧
      (∀ t ∈ (triangles.drop e.triangle_begin).take
          (e.triangle_end - e.triangle_begin),
        (e.vertex_begin ≤ t.x ∧ t.x < e.vertex_end) ∧
        (e.vertex_begin ≤ t.y ∧ t.y < e.vertex_end) ∧
        (e.vertex_begin ≤ t.z ∧ t.z < e.vertex_end)) ∧
      WalkMesh.construct
        ((vertices.drop e.vertex_begin).take (e.vertex_end - e.vertex_begin))
        ((normals.drop e.vertex_begin).take (e.vertex_end - e.vertex_begin))
        (((triangles.drop e.triangle_begin).take
            (e.triangle_end - e.triangle_begin)).map fun t =>
          (⟨t.x - e.vertex_begin, t.y - e.vertex_begin,
            t.z - e.vertex_begin⟩ : UVec3)) ≠ none)
    (hpair : index.Pairwise (fun e1 e2 => e1.name names ≠ e2.name names)) :
    ∃ ms, WalkMeshes.build vertices normals triangles names index =
      Except.ok ms ∧ ms.length = index.length := by
  unfold WalkMeshes.build
  rw [if_neg (not_not_intro hvn)]
  obtain ⟨ms, hms, hlen⟩ := buildEntries_ok vertices normals triangles names
    index [] hentry hpair (by simp)
  exact ⟨ms, hms, by simpa using hlen⟩

unseal Rat.inv Rat.mul Rat.add Rat.sub in
/-- C9 witness for the amended theorem: the overlapping two-entry input
loads into exactly two meshes. -/
theorem C9_witness :
    ∃ ms, WalkMeshes.build
        ([⟨0, 0, 0⟩, ⟨1, 0, 0⟩, ⟨0, 1, 0⟩] : List (Vec3 ℚ))
        [⟨0, 0, 1⟩, ⟨0, 0, 1⟩, ⟨0, 0, 1⟩]
        [⟨0, 1, 2⟩]
        [(Char.ofNat 97), (Char.ofNat 98)]
        [⟨0, 1, 0, 3, 0, 1⟩, ⟨1, 2, 0, 3, 0, 1⟩] = Except.ok ms ∧
      ms.length = [(⟨0, 1, 0, 3, 0, 1⟩ : IndexEntry),
        ⟨1, 2, 0, 3, 0, 1⟩].length :=
  C9_amended_overlap_not_checked
    ([⟨0, 0, 0⟩, ⟨1, 0, 0⟩, ⟨0, 1, 0⟩] : List (Vec3 ℚ))
    [⟨0, 0, 1⟩, ⟨0, 0, 1⟩, ⟨0, 0, 1⟩]
    [⟨0, 1, 2⟩]
    [(Char.ofNat 97), (Char.ofNat 98)]
    [⟨0, 1, 0, 3, 0, 1⟩, ⟨1, 2, 0, 3, 0, 1⟩]
    (by decide) (by decide) (by decide)

end WalkMeshVerif
